import Mathlib

/-!
NeuralReadingEngine, the bionic-reading formatter: a shallow embedding of
`web/cpp/NeuralReadingEngine.cpp` and its properties.

A `std::string` is a finite sequence of `char` code units.  It is modelled as a
`List Char`; every code unit `0 .. 255` is the `Char` with the same numeric
value, so every byte string is such a list.  `std::string::length()` is
`List.length`, `+` is `++`.

Operations that can raise an error or have a precondition (`substr`,
`pop_back`, the conversion of a binary64 value to `int`) return an `Option`;
`none` stands for the error or the undefined behaviour.  The methods
`processWord` and `applyBionicReading` therefore return `Option (List Char)`.
Floating-point expressions are evaluated in binary64, with every result
rounded to nearest, ties to even.
-/

namespace NeuralReadingEngine

/-! ## Standard library pieces used by the class -/

/-- The whitespace classifier of the classic "C" locale, which the formatted
extraction `ss >> word` consults: space (32) and the controls 9 .. 13 (tab, line
feed, vertical tab, form feed, carriage return).  No code above 127 is
whitespace in that locale. -/
def isspace (c : Char) : Bool :=
  c.toNat == 32 || (9 ≤ c.toNat && c.toNat ≤ 13)

/-- The member `std::string::substr(pos, count)`: the out-of-range error (here
`none`) when `pos > size()`, otherwise the characters
`[pos, pos + min(count, size() - pos))`. -/
def substr (s : List Char) (pos count : Nat) : Option (List Char) :=
  if s.length < pos then none else some ((s.drop pos).take count)

/-- The one-argument call `substr(pos)`: `count` defaults to `npos`, which
clamps to `size() - pos` exactly as the count `size()` does. -/
def substrFrom (s : List Char) (pos : Nat) : Option (List Char) :=
  substr s pos s.length

/-- The member `std::string::pop_back()`: requires a non-empty string (`none`
otherwise) and removes the last character. -/
def pop_back (s : List Char) : Option (List Char) :=
  if s.isEmpty then none else some s.dropLast

/-- The formatted extraction `ss >> word`.  The state of the string stream is
the part `ss` of the text not read yet.  The sentry first skips leading
whitespace; at end of input the extraction fails (`none`: the stream converts
to `false` and the loop ends).  Otherwise `word` receives the characters up to
the next whitespace or the end of input, and the stream keeps what follows.
After a word that reaches the end of input nothing is left, so the next
extraction fails, as it does in the source where the end-of-file flag is set. -/
def extract (ss : List Char) : Option (List Char × List Char) :=
  match ss.dropWhile isspace with
  | [] => none
  | c :: cs =>
    some ((c :: cs).takeWhile (fun x => !isspace x), (c :: cs).dropWhile (fun x => !isspace x))

/-! ## The class `NeuralReadingEngine` -/

/-- The literal `"<strong>"`. -/
def strongOpen : List Char := ['<', 's', 't', 'r', 'o', 'n', 'g', '>']

/-- The literal `"</strong>"`. -/
def strongClose : List Char := ['<', '/', 's', 't', 'r', 'o', 'n', 'g', '>']

/-- Rounding to binary64: the natural number nearest to `m` that has at most 53
significant bits, ties going to the even significand.  Every binary64 operation
rounds its exact result this way; the exact result is given as an integer
number of units `2 ^ (-e)`, and so is the rounded one. -/
def roundBinary64 (m : Nat) : Nat :=
  let shift := (Nat.log2 m + 1) - 53
  let q := m / 2 ^ shift
  let r := m % 2 ^ shift
  (if 2 ^ shift < 2 * r then q + 1 else if 2 * r = 2 ^ shift then q + q % 2 else q) * 2 ^ shift

/-- The expression `std::ceil(word.length() * 0.4)` as the machine evaluates
it.  The length is converted to binary64, multiplied by the binary64 constant
`0.4`, which is `7205759403792794 * 2 ^ (-54)`, the product is rounded, and
`std::ceil` takes the least integer not below it. -/
def boldLengthBinary64 (n : Nat) : Nat :=
  (roundBinary64 (roundBinary64 n * 7205759403792794) + (2 ^ 54 - 1)) / 2 ^ 54

/-- The declaration `int boldLength = std::ceil(word.length() * 0.4);`: the
binary64 value is converted to the 32-bit `int`.  The conversion is defined only
for a value that fits, that is up to `2147483647`; for a larger value the
behaviour is undefined, here `none`.  (On x86-64 the conversion then yields
`-2147483648`, which as `size_t` is far beyond the end of the word, and
`substr(boldLength)` throws `std::out_of_range`: an error either way.)  A
value that fits is not negative, so passing it on as `size_t` keeps it. -/
def boldLength (n : Nat) : Option Nat :=
  if boldLengthBinary64 n ≤ 2147483647 then some (boldLengthBinary64 n) else none

/-- The method `processWord`.  The `int` held by `boldLength` is not negative
when it is defined, so both `substr` calls receive it unchanged as `size_t`. -/
def processWord (word : List Char) : Option (List Char) :=
  if word.length ≤ 2 then some word
  else do
    let k ← boldLength word.length
    let boldPart ← substr word 0 k
    let normalPart ← substrFrom word k
    some (strongOpen ++ boldPart ++ strongClose ++ normalPart)

/-- The loop `while (ss >> word) { result += processWord(word) + " "; }` run for
at most `fuel` evaluations of its condition; `none` when the fuel runs out or
`processWord` raises an error, otherwise the final `result`. -/
def whileLoop : Nat → List Char → List Char → Option (List Char)
  | 0, _, _ => none
  | fuel + 1, ss, result =>
    match extract ss with
    | none => some result
    | some (word, rest) =>
      match processWord word with
      | none => none
      | some piece => whileLoop fuel rest (result ++ (piece ++ [' ']))

/-- The method `applyBionicReading`.  Every successful extraction consumes at
least one character of the stream, so `text.length + 1` evaluations of the loop
condition are always enough (`whileLoop_fuel`). -/
def applyBionicReading (text : List Char) : Option (List Char) :=
  match whileLoop (text.length + 1) text [] with
  | none => none
  | some result => if !result.isEmpty then pop_back result else some result

/-- The method `calculateCognitiveLoad`: `text.length() * 0.05` as the machine
evaluates it.  The length is converted to binary64, multiplied by the binary64
constant `0.05`, which is `7205759403792794 * 2 ^ (-57)`, and the product is
rounded.  The binary64 result is given as the rational number it denotes. -/
def calculateCognitiveLoad (text : List Char) : ℚ :=
  (roundBinary64 (roundBinary64 text.length * 7205759403792794) : ℚ) / 2 ^ 57

/-! ## Specification-side notions -/

/-- The whitespace-delimited tokens of a text, in the words of the
specification: split the text at every whitespace character and discard the
empty pieces produced by leading, trailing and repeated whitespace. -/
def tokens (text : List Char) : List (List Char) :=
  (text.splitOnP isspace).filter (fun t => !t.isEmpty)

/-- The ceiling of `n * 0.4` in exact arithmetic, `⌈2 * n / 5⌉`: the prefix
length the specification asks for. -/
def exactBoldLength (n : Nat) : Nat :=
  (2 * n + 4) / 5

/-- A word of 5368709118 copies of the character `c`: the shortest length at
which the ceiling of `length * 0.4`, here `2147483648`, does not fit `int`. -/
def hugeWord (c : Char) : List Char :=
  List.replicate 5368709118 c

/-- The string the specification asks of `processWord`: the word itself when
its length is at most 2, otherwise the tagged prefix of length
`exactBoldLength` followed by the rest. -/
def emphasized (word : List Char) : List Char :=
  if word.length ≤ 2 then word
  else strongOpen ++ word.take (exactBoldLength word.length) ++ strongClose
    ++ word.drop (exactBoldLength word.length)

/-- The number of occurrences of `pat` in `s`: the number of positions of `s`
at which a copy of `pat` starts. -/
def countOccurrences (pat : List Char) : List Char → Nat
  | [] => if pat.isPrefixOf [] then 1 else 0
  | c :: cs => (if pat.isPrefixOf (c :: cs) then 1 else 0) + countOccurrences pat cs

/-- Left-to-right scan behind `removeAll`; `skip` is the number of characters of
the occurrence just found that are still to be dropped. -/
def removeAllAux (pat : List Char) : Nat → List Char → List Char
  | _, [] => []
  | skip + 1, _ :: cs => removeAllAux pat skip cs
  | 0, c :: cs =>
    if pat.isPrefixOf (c :: cs) then removeAllAux pat (pat.length - 1) cs
    else c :: removeAllAux pat 0 cs

/-- Remove every occurrence of `pat` from `s`, scanning from the left. -/
def removeAll (pat s : List Char) : List Char :=
  removeAllAux pat 0 s

/-- Strip the two markers `"<strong>"` and `"</strong>"` from a piece. -/
def stripMarkers (piece : List Char) : List Char :=
  removeAll strongClose (removeAll strongOpen piece)

/-- No copy of `pat` inside `x ++ z` starts within `x`. -/
def NoStart (pat x z : List Char) : Prop :=
  ∀ t : List Char, t ≠ [] → t <:+ x → ¬ pat <+: t ++ z

/-! ## Basic facts -/

theorem exactBoldLength_le (n : Nat) : exactBoldLength n ≤ n := by
  unfold exactBoldLength; omega

theorem exactBoldLength_pos {n : Nat} (h : 3 ≤ n) : 1 ≤ exactBoldLength n := by
  unfold exactBoldLength; omega

theorem exactBoldLength_lt {n : Nat} (h : 3 ≤ n) : exactBoldLength n < n := by
  unfold exactBoldLength; omega

theorem exactBoldLength_isLeast (n : Nat) : IsLeast {k : Nat | 2 * n ≤ 5 * k} (exactBoldLength n) := by
  constructor
  · show 2 * n ≤ 5 * exactBoldLength n
    unfold exactBoldLength; omega
  · intro j hj
    have hj2 : 2 * n ≤ 5 * j := hj
    unfold exactBoldLength; omega

/-! ### The binary64 evaluation of `boldLength` -/

theorem log2_succ_le {m k : Nat} (h : m < 2 ^ k) (hk : 0 < k) : Nat.log2 m + 1 ≤ k := by
  rcases Nat.eq_zero_or_pos m with h0 | hpos
  · subst h0; rw [Nat.log2_zero]; omega
  · have := (Nat.log2_lt (Nat.pos_iff_ne_zero.mp hpos)).mpr h
    omega

/-- Numbers below `2 ^ 53` are binary64 values: rounding leaves them alone. -/
theorem roundBinary64_of_lt {m : Nat} (h : m < 2 ^ 53) : roundBinary64 m = m := by
  have hs : (Nat.log2 m + 1) - 53 = 0 := by
    have := log2_succ_le h (by decide)
    omega
  simp [roundBinary64, hs, Nat.mod_one]

/-- Rounding moves a number by at most half a unit in the last place. -/
theorem roundBinary64_error (m : Nat) :
    2 * roundBinary64 m ≤ 2 * m + 2 ^ ((Nat.log2 m + 1) - 53) ∧
      2 * m ≤ 2 * roundBinary64 m + 2 ^ ((Nat.log2 m + 1) - 53) := by
  unfold roundBinary64
  simp only []
  generalize hP : 2 ^ ((Nat.log2 m + 1) - 53) = P
  have hPpos : 0 < P := by rw [← hP]; exact Nat.two_pow_pos _
  have hdm := Nat.div_add_mod m P
  have hr := Nat.mod_lt m hPpos
  rw [Nat.mul_comm] at hdm
  generalize m / P = q at *
  generalize m % P = r at *
  have hq2 := Nat.mod_two_eq_zero_or_one q
  split
  · rw [Nat.add_mul]; omega
  · split
    · rw [Nat.add_mul]
      rcases hq2 with h | h <;> rw [h] <;> omega
    · omega

/-- Rounding changes a number by at most the fraction `2 ^ (-53)` of it. -/
theorem roundBinary64_relative (m : Nat) :
    2 ^ 53 * roundBinary64 m ≤ 2 ^ 53 * m + m ∧ 2 ^ 53 * m ≤ 2 ^ 53 * roundBinary64 m + m := by
  have herr := roundBinary64_error m
  rcases Nat.eq_zero_or_pos ((Nat.log2 m + 1) - 53) with h0 | hpos
  · rw [h0] at herr
    omega
  · have hm : m ≠ 0 := by
      rintro rfl
      rw [Nat.log2_zero] at hpos
      omega
    have h1 : 2 ^ Nat.log2 m ≤ m := Nat.log2_self_le hm
    have h2 : 2 ^ ((Nat.log2 m + 1) - 53) * 2 ^ 52 = 2 ^ Nat.log2 m := by
      rw [← pow_add]; congr 1; omega
    generalize 2 ^ ((Nat.log2 m + 1) - 53) = P at *
    generalize roundBinary64 m = v at *
    omega

/-- The product of an exact multiple: `k * (2 ^ 54 + 1)` rounds to `k * 2 ^ 54`. -/
theorem roundBinary64_exact {k : Nat} (hk0 : 0 < k) (hk : k < 2 ^ 53) :
    roundBinary64 (k * 2 ^ 54 + k) = k * 2 ^ 54 := by
  have hkne : k ≠ 0 := Nat.pos_iff_ne_zero.mp hk0
  have hb1 : 2 ^ Nat.log2 k ≤ k := Nat.log2_self_le hkne
  have hb2 : k < 2 ^ (Nat.log2 k + 1) := Nat.lt_log2_self
  have hb : Nat.log2 k < 53 := (Nat.log2_lt hkne).mpr hk
  generalize Nat.log2 k = b at *
  have hmne : k * 2 ^ 54 + k ≠ 0 := by omega
  have hlog : Nat.log2 (k * 2 ^ 54 + k) = b + 54 := by
    have h1 : Nat.log2 (k * 2 ^ 54 + k) < b + 55 := by
      rw [Nat.log2_lt hmne]
      have : k + 1 ≤ 2 ^ (b + 1) := hb2
      calc k * 2 ^ 54 + k < (k + 1) * 2 ^ 54 := by omega
        _ ≤ 2 ^ (b + 1) * 2 ^ 54 := Nat.mul_le_mul_right _ this
        _ = 2 ^ (b + 55) := by rw [← pow_add]
    have h2 : ¬ Nat.log2 (k * 2 ^ 54 + k) < b + 54 := by
      rw [Nat.log2_lt hmne, not_lt]
      calc 2 ^ (b + 54) = 2 ^ b * 2 ^ 54 := by rw [pow_add]
        _ ≤ k * 2 ^ 54 := Nat.mul_le_mul_right _ hb1
        _ ≤ k * 2 ^ 54 + k := Nat.le_add_right _ _
    omega
  have hs : (Nat.log2 (k * 2 ^ 54 + k) + 1) - 53 = b + 2 := by omega
  have hsplit : (2 : Nat) ^ 54 = 2 ^ (52 - b) * 2 ^ (b + 2) := by
    rw [← pow_add]; congr 1; omega
  have hpow : (2 : Nat) ^ (b + 2) = 2 * 2 ^ (b + 1) := by rw [pow_succ]; ring
  have hklt : k < 2 ^ (b + 2) := by omega
  have hk2 : 2 * k < 2 ^ (b + 2) := by omega
  have hm : k * 2 ^ 54 + k = k + (k * 2 ^ (52 - b)) * 2 ^ (b + 2) := by
    rw [hsplit]; ring
  have hq : (k * 2 ^ 54 + k) / 2 ^ (b + 2) = k * 2 ^ (52 - b) := by
    rw [hm, Nat.add_mul_div_right _ _ (Nat.two_pow_pos _), Nat.div_eq_of_lt hklt, Nat.zero_add]
  have hr : (k * 2 ^ 54 + k) % 2 ^ (b + 2) = k := by
    rw [hm, Nat.add_mul_mod_self_right, Nat.mod_eq_of_lt hklt]
  unfold roundBinary64
  simp only [hs, hq, hr]
  rw [if_neg (by omega), if_neg (by omega), Nat.mul_assoc, ← hsplit]

/-- For every length below `2 ^ 40` the binary64 evaluation of
`std::ceil(word.length() * 0.4)` is the exact ceiling. -/
theorem boldLengthBinary64_exact {n : Nat} (h : n < 2 ^ 40) :
    boldLengthBinary64 n = exactBoldLength n := by
  have hk1 : 2 * n ≤ 5 * exactBoldLength n := by unfold exactBoldLength; omega
  have hk2 : 5 * exactBoldLength n < 2 * n + 5 := by unfold exactBoldLength; omega
  unfold boldLengthBinary64
  rw [roundBinary64_of_lt (by omega : n < 2 ^ 53)]
  generalize exactBoldLength n = k at *
  by_cases hr : 2 * n = 5 * k
  · rcases Nat.eq_zero_or_pos k with h0 | hpos
    · have hn : n = 0 := by omega
      subst hn; subst h0
      rw [roundBinary64_of_lt (by omega)]
      omega
    · have hm : n * 7205759403792794 = k * 2 ^ 54 + k := by omega
      rw [hm, roundBinary64_exact hpos (by omega)]
      omega
  · have herr := roundBinary64_error (n * 7205759403792794)
    have hs : (Nat.log2 (n * 7205759403792794) + 1) - 53 ≤ 40 := by
      have := log2_succ_le (by omega : n * 7205759403792794 < 2 ^ 93) (by decide)
      omega
    have hP : 2 ^ ((Nat.log2 (n * 7205759403792794) + 1) - 53) ≤ 2 ^ 40 :=
      Nat.pow_le_pow_right (by decide) hs
    generalize 2 ^ ((Nat.log2 (n * 7205759403792794) + 1) - 53) = P at *
    generalize roundBinary64 (n * 7205759403792794) = v at *
    omega

/-- For every length up to 5368709117 the binary64 evaluation of
`std::ceil(word.length() * 0.4)` is the exact ceiling, and the conversion to
`int` is defined because the value is at most `2 ^ 31 - 1`. -/
theorem boldLengthBinary64_eq {n : Nat} (h : n ≤ 5368709117) :
    boldLengthBinary64 n = exactBoldLength n ∧ exactBoldLength n ≤ 2147483647 := by
  refine ⟨boldLengthBinary64_exact (by omega), ?_⟩
  unfold exactBoldLength; omega

/-- From length 5368709118 on, the binary64 value of
`std::ceil(word.length() * 0.4)` is beyond the largest `int`. -/
theorem boldLengthBinary64_large {n : Nat} (h : 5368709118 ≤ n) :
    2147483647 < boldLengthBinary64 n := by
  have h1 := roundBinary64_relative n
  have h2 := roundBinary64_relative (roundBinary64 n * 7205759403792794)
  unfold boldLengthBinary64
  generalize roundBinary64 (roundBinary64 n * 7205759403792794) = v at *
  generalize roundBinary64 n = x at *
  omega

/-- The variable `boldLength` holds the exact ceiling for every length up to
5368709117 and has no defined value for any greater length. -/
theorem boldLength_eq (n : Nat) :
    boldLength n = if n ≤ 5368709117 then some (exactBoldLength n) else none := by
  unfold boldLength
  by_cases h : n ≤ 5368709117
  · obtain ⟨h1, h2⟩ := boldLengthBinary64_eq h
    rw [if_pos h, h1, if_pos h2]
  · have := boldLengthBinary64_large (by omega : 5368709118 ≤ n)
    rw [if_neg h, if_neg (by omega)]

theorem substr_zero (s : List Char) (count : Nat) : substr s 0 count = some (s.take count) := by
  simp [substr]

theorem substrFrom_of_le {s : List Char} {pos : Nat} (h : pos ≤ s.length) :
    substrFrom s pos = some (s.drop pos) := by
  have h1 : ¬ s.length < pos := by omega
  simp [substrFrom, substr, h1]

theorem substrFrom_of_lt {s : List Char} {pos : Nat} (h : s.length < pos) :
    substrFrom s pos = none := by
  simp [substrFrom, substr, h]

/-- What `processWord` does: up to length 5368709117 it returns the string the
specification asks for; for a longer word the conversion to `int` is
undefined and no string is returned. -/
theorem processWord_eq (word : List Char) :
    processWord word
      = if word.length ≤ 5368709117 then some (emphasized word) else none := by
  unfold processWord emphasized
  by_cases h2 : word.length ≤ 2
  · rw [if_pos h2, if_pos h2, if_pos (by omega)]
  · rw [if_neg h2, if_neg h2, boldLength_eq]
    by_cases h : word.length ≤ 5368709117
    · rw [if_pos h, if_pos h]
      simp only [Option.bind_eq_bind, Option.some_bind, substr_zero,
        substrFrom_of_le (exactBoldLength_le word.length)]
    · rw [if_neg h, if_neg h]
      rfl

theorem processWord_of_le {word : List Char} (h : word.length ≤ 5368709117) :
    processWord word = some (emphasized word) := by
  rw [processWord_eq, if_pos h]

theorem processWord_of_gt {word : List Char} (h : 5368709117 < word.length) :
    processWord word = none := by
  rw [processWord_eq, if_neg (by omega)]

theorem processWord_eq_some_iff {word out : List Char} :
    processWord word = some out ↔ word.length ≤ 5368709117 ∧ out = emphasized word := by
  rw [processWord_eq]
  by_cases h : word.length ≤ 5368709117
  · rw [if_pos h]
    constructor
    · intro e; exact ⟨h, (Option.some.inj e).symm⟩
    · rintro ⟨_, rfl⟩; rfl
  · rw [if_neg h]
    constructor
    · intro e; exact absurd e (by simp)
    · rintro ⟨h', _⟩; exact absurd h' h

/-- The results of `processWord` on a list of words, in the `Option` monad. -/
theorem mapM_processWord_eq_some_iff {ts ps : List (List Char)} :
    ts.mapM processWord = some ps
      ↔ (∀ t ∈ ts, t.length ≤ 5368709117) ∧ ps = ts.map emphasized := by
  induction ts generalizing ps with
  | nil =>
    rw [List.mapM_nil]
    constructor
    · intro e; exact ⟨by simp, (Option.some.inj e).symm⟩
    · rintro ⟨_, rfl⟩; rfl
  | cons t ts ih =>
    rw [List.mapM_cons, processWord_eq]
    by_cases h : t.length ≤ 5368709117
    · rw [if_pos h]
      cases hm : ts.mapM processWord with
      | none =>
        constructor
        · intro e; exact absurd e (by simp)
        · rintro ⟨hall, _⟩
          have := (@ih (ts.map emphasized)).mpr
            ⟨fun x hx => hall x (List.mem_cons_of_mem _ hx), rfl⟩
          rw [hm] at this
          exact absurd this (by simp)
      | some qs =>
        obtain ⟨hq1, hq2⟩ := ih.mp hm
        constructor
        · intro e
          have e' : emphasized t :: qs = ps := Option.some.inj e
          refine ⟨?_, ?_⟩
          · intro x hx
            rcases List.mem_cons.mp hx with rfl | hx
            · exact h
            · exact hq1 x hx
          · rw [← e', hq2, List.map_cons]
        · rintro ⟨_, rfl⟩
          rw [hq2]
          rfl
    · rw [if_neg h]
      constructor
      · intro e; exact absurd e (by simp)
      · rintro ⟨hall, _⟩
        exact absurd (hall t (List.mem_cons_self _ _)) h

theorem mapM_processWord_of_le {ts : List (List Char)}
    (h : ∀ t ∈ ts, t.length ≤ 5368709117) :
    ts.mapM processWord = some (ts.map emphasized) :=
  mapM_processWord_eq_some_iff.mpr ⟨h, rfl⟩

theorem mapM_processWord_eq_none_iff {ts : List (List Char)} :
    ts.mapM processWord = none ↔ ∃ t ∈ ts, 5368709117 < t.length := by
  constructor
  · intro e
    by_contra hne
    have hall : ∀ t ∈ ts, t.length ≤ 5368709117 := by
      intro t ht
      by_contra hlt
      exact hne ⟨t, ht, by omega⟩
    rw [mapM_processWord_of_le hall] at e
    exact absurd e (by simp)
  · rintro ⟨t, ht, hlt⟩
    cases hm : ts.mapM processWord with
    | none => rfl
    | some ps =>
      have := (mapM_processWord_eq_some_iff.mp hm).1 t ht
      omega

theorem emphasized_short {word : List Char} (h : word.length ≤ 2) : emphasized word = word := by
  simp [emphasized, h]

theorem emphasized_long {word : List Char} (h : 3 ≤ word.length) :
    emphasized word = strongOpen ++ word.take (exactBoldLength word.length) ++ strongClose
      ++ word.drop (exactBoldLength word.length) := by
  have h1 : ¬ word.length ≤ 2 := by omega
  simp [emphasized, h1]

theorem emphasized_ne_nil {word : List Char} (h : word ≠ []) : emphasized word ≠ [] := by
  unfold emphasized
  split
  · exact h
  · simp [strongOpen]

/-! ## Tokens and the extraction loop -/

theorem splitOnP_eq_takeWhile_cons (p : Char → Bool) (l : List Char) :
    l.splitOnP p = l.takeWhile (fun x => !p x) ::
      (match l.dropWhile (fun x => !p x) with
        | [] => []
        | _ :: r => r.splitOnP p) := by
  induction l with
  | nil => rfl
  | cons x xs ih =>
    rw [List.splitOnP_cons]
    by_cases hx : p x = true
    · simp [hx, List.takeWhile_cons, List.dropWhile_cons]
    · simp only [hx, Bool.false_eq_true, if_false]
      rw [ih]
      simp [hx, List.takeWhile_cons, List.dropWhile_cons, List.modifyHead]

theorem tokens_nil : tokens [] = [] := by
  simp [tokens]

theorem tokens_cons_space {c : Char} (h : isspace c = true) (cs : List Char) :
    tokens (c :: cs) = tokens cs := by
  simp [tokens, List.splitOnP_cons, h]

/-- A non-empty run of non-whitespace characters that reaches the end of the
text is the only token of that text. -/
theorem tokens_word {w : List Char} (hne : w ≠ []) (hw : ∀ c ∈ w, isspace c = false) :
    tokens w = [w] := by
  have h : ∀ x ∈ w, ¬ isspace x = true := fun x hx => by simp [hw x hx]
  rw [tokens, List.splitOnP_eq_single isspace w h]
  simp [hne]

/-- A non-empty run of non-whitespace characters that is followed by a
whitespace character is the first token; the remaining tokens are those of the
text after that whitespace character.  Together with `tokens_nil`,
`tokens_cons_space` and `tokens_word` this says that the tokens are the maximal
runs of non-whitespace characters, in order. -/
theorem tokens_word_space {w : List Char} (hne : w ≠ []) (hw : ∀ c ∈ w, isspace c = false)
    {sep : Char} (hsep : isspace sep = true) (rest : List Char) :
    tokens (w ++ sep :: rest) = w :: tokens rest := by
  have h : ∀ x ∈ w, ¬ isspace x = true := fun x hx => by simp [hw x hx]
  rw [tokens, List.splitOnP_first isspace w h sep hsep rest]
  simp [hne, tokens]

theorem tokens_dropWhile (ss : List Char) : tokens (ss.dropWhile isspace) = tokens ss := by
  induction ss with
  | nil => rfl
  | cons c cs ih =>
    by_cases hc : isspace c = true
    · rw [List.dropWhile_cons_of_pos hc, ih, tokens_cons_space hc]
    · rw [List.dropWhile_cons_of_neg hc]

theorem tokens_cons_nonspace {c : Char} (h : isspace c = false) (cs : List Char) :
    tokens (c :: cs) = (c :: cs).takeWhile (fun x => !isspace x) ::
      tokens ((c :: cs).dropWhile (fun x => !isspace x)) := by
  have hne : (c :: cs).takeWhile (fun x => !isspace x) ≠ [] := by
    simp [List.takeWhile_cons, h]
  conv_lhs => rw [tokens, splitOnP_eq_takeWhile_cons]
  rw [List.filter_cons_of_pos (by simpa using hne)]
  congr 1
  cases hd : (c :: cs).dropWhile (fun x => !isspace x) with
  | nil => simp [tokens_nil]
  | cons s r =>
    have hs : isspace s = true := by
      have := List.head_dropWhile_not (fun x => !isspace x) (c :: cs) (by rw [hd]; simp)
      simpa [hd] using this
    rw [tokens_cons_space hs]
    rfl

theorem tokens_extract (ss : List Char) :
    tokens ss = match extract ss with
      | none => []
      | some (word, rest) => word :: tokens rest := by
  rw [← tokens_dropWhile ss]
  unfold extract
  cases hd : ss.dropWhile isspace with
  | nil => simp [tokens_nil]
  | cons c cs =>
    have hc : isspace c = false := by
      have := List.head_dropWhile_not isspace ss (by rw [hd]; simp)
      simpa [hd] using this
    simp only []
    exact tokens_cons_nonspace hc cs

theorem extract_length {ss word rest : List Char} (h : extract ss = some (word, rest)) :
    rest.length < ss.length := by
  unfold extract at h
  cases hd : ss.dropWhile isspace with
  | nil => simp [hd] at h
  | cons c cs =>
    have hc : isspace c = false := by
      have := List.head_dropWhile_not isspace ss (by rw [hd]; simp)
      simpa [hd] using this
    simp only [hd, Option.some.injEq, Prod.mk.injEq] at h
    have h1 : rest.length ≤ cs.length := by
      rw [← h.2, List.dropWhile_cons_of_pos (by simp [hc])]
      exact (List.dropWhile_sublist _).length_le
    have h2 : (c :: cs).length ≤ ss.length := by
      rw [← hd]; exact (List.dropWhile_sublist _).length_le
    simp at h2
    omega

/-- With enough fuel the loop appends, for every token of the unread input in
order, the result of `processWord` on the token followed by one space; it ends
in an error exactly when `processWord` does on some token. -/
theorem whileLoop_fuel (fuel : Nat) (ss result : List Char) (h : ss.length < fuel) :
    whileLoop fuel ss result
      = ((tokens ss).mapM processWord).map
          (fun ps => result ++ (ps.map (fun w => w ++ [' '])).flatten) := by
  induction fuel generalizing ss result with
  | zero => omega
  | succ fuel ih =>
    rw [whileLoop, tokens_extract ss]
    cases he : extract ss with
    | none =>
      simp only [List.mapM_nil]
      show some result = some (result ++ _)
      simp
    | some wr =>
      obtain ⟨word, rest⟩ := wr
      have hlen := extract_length he
      simp only [List.mapM_cons]
      cases hp : processWord word with
      | none => rfl
      | some piece =>
        simp only []
        rw [ih rest _ (by omega)]
        cases hm : (tokens rest).mapM processWord with
        | none => rfl
        | some ps => simp

theorem flatten_map_append_sep (sep : List Char) (ps : List (List Char)) (h : ps ≠ []) :
    (ps.map (fun w => w ++ sep)).flatten = sep.intercalate ps ++ sep := by
  induction ps with
  | nil => exact absurd rfl h
  | cons a as ih =>
    cases as with
    | nil => simp [List.intercalate]
    | cons b bs =>
      have := ih (by simp)
      simp only [List.map_cons, List.flatten_cons] at this ⊢
      rw [this]
      simp [List.intercalate, List.intersperse]

/-- The method `applyBionicReading` in closed form: the results of
`processWord` on the tokens, joined by single spaces; an error of `processWord`
on a token is an error of `applyBionicReading`. -/
theorem applyBionicReading_eq (text : List Char) :
    applyBionicReading text
      = ((tokens text).mapM processWord).map (fun ps => [' '].intercalate ps) := by
  unfold applyBionicReading
  rw [whileLoop_fuel _ _ _ (Nat.lt_succ_self _)]
  cases hm : (tokens text).mapM processWord with
  | none => rfl
  | some ps =>
    simp only [Option.map_some', List.nil_append]
    cases ps with
    | nil => simp [List.intercalate]
    | cons p ps =>
      rw [flatten_map_append_sep _ _ (by simp)]
      simp [pop_back]

theorem applyBionicReading_eq_some_iff {text out : List Char} :
    applyBionicReading text = some out
      ↔ (∀ t ∈ tokens text, t.length ≤ 5368709117)
        ∧ out = [' '].intercalate ((tokens text).map emphasized) := by
  rw [applyBionicReading_eq]
  cases hm : (tokens text).mapM processWord with
  | none =>
    constructor
    · intro e; exact absurd e (by simp)
    · rintro ⟨hall, _⟩
      rw [mapM_processWord_of_le hall] at hm
      exact absurd hm (by simp)
  | some ps =>
    obtain ⟨h1, h2⟩ := mapM_processWord_eq_some_iff.mp hm
    constructor
    · intro e
      exact ⟨h1, by rw [← h2]; exact (Option.some.inj e).symm⟩
    · rintro ⟨_, rfl⟩
      rw [h2]; rfl

theorem applyBionicReading_eq_none_iff {text : List Char} :
    applyBionicReading text = none ↔ ∃ t ∈ tokens text, 5368709117 < t.length := by
  rw [applyBionicReading_eq, ← mapM_processWord_eq_none_iff]
  cases (tokens text).mapM processWord <;> simp

theorem exactBoldLength_eq_ceil (n : Nat) : exactBoldLength n = ⌈(n : ℚ) * (4 / 10)⌉₊ := by
  have h1 : 2 * n ≤ 5 * exactBoldLength n := by unfold exactBoldLength; omega
  have h2 : 5 * exactBoldLength n < 2 * n + 5 := by unfold exactBoldLength; omega
  have q1 : (2 : ℚ) * n ≤ 5 * (exactBoldLength n : ℚ) := by exact_mod_cast h1
  have q2 : (5 : ℚ) * (exactBoldLength n : ℚ) < 2 * n + 5 := by exact_mod_cast h2
  apply le_antisymm
  · rcases Nat.eq_zero_or_pos (exactBoldLength n) with h0 | hpos
    · rw [h0]; exact Nat.zero_le _
    · have : exactBoldLength n - 1 < ⌈(n : ℚ) * (4 / 10)⌉₊ := by
        rw [Nat.lt_ceil]
        have hc : ((exactBoldLength n - 1 : ℕ) : ℚ) = (exactBoldLength n : ℚ) - 1 := by
          rw [Nat.cast_sub hpos]; simp
        rw [hc]; linarith
      omega
  · rw [Nat.ceil_le]; linarith

/-! ## Occurrences of a pattern -/

theorem noStart_nil (pat z : List Char) : NoStart pat [] z := by
  intro t ht hs
  exact absurd (List.suffix_nil.mp hs) ht

theorem noStart_cons {pat x z : List Char} {c : Char} (h : NoStart pat (c :: x) z) :
    ¬ pat <+: c :: (x ++ z) ∧ NoStart pat x z := by
  constructor
  · exact h (c :: x) (by simp) (List.suffix_refl _)
  · intro t ht hs
    exact h t ht (List.suffix_cons_iff.mpr (Or.inr hs))

theorem countOccurrences_cons (pat : List Char) (c : Char) (cs : List Char) :
    countOccurrences pat (c :: cs)
      = (if pat <+: c :: cs then 1 else 0) + countOccurrences pat cs := by
  simp [countOccurrences]

theorem removeAll_cons (pat : List Char) (c : Char) (cs : List Char) :
    removeAll pat (c :: cs)
      = if pat <+: c :: cs then removeAllAux pat (pat.length - 1) cs
        else c :: removeAll pat cs := by
  simp [removeAll, removeAllAux]

theorem countOccurrences_append_noStart {pat x z : List Char} (h : NoStart pat x z) :
    countOccurrences pat (x ++ z) = countOccurrences pat z := by
  induction x with
  | nil => rfl
  | cons c x ih =>
    obtain ⟨h1, h2⟩ := noStart_cons h
    rw [List.cons_append, countOccurrences_cons, if_neg h1, Nat.zero_add, ih h2]

theorem removeAll_append_noStart {pat x z : List Char} (h : NoStart pat x z) :
    removeAll pat (x ++ z) = x ++ removeAll pat z := by
  induction x with
  | nil => rfl
  | cons c x ih =>
    obtain ⟨h1, h2⟩ := noStart_cons h
    rw [List.cons_append, removeAll_cons, if_neg h1, ih h2, List.cons_append]

theorem removeAllAux_skip (pat x z : List Char) :
    removeAllAux pat x.length (x ++ z) = removeAllAux pat 0 z := by
  induction x with
  | nil => rfl
  | cons c x ih => simpa [removeAllAux] using ih

theorem removeAll_match (a : Char) (rest z : List Char) :
    removeAll (a :: rest) (a :: rest ++ z) = removeAll (a :: rest) z := by
  have hp : (a :: rest) <+: a :: (rest ++ z) := List.prefix_append (a :: rest) z
  rw [List.cons_append, removeAll_cons, if_pos hp, List.length_cons, Nat.add_sub_cancel]
  exact removeAllAux_skip _ rest z

theorem countOccurrences_match (a : Char) (rest z : List Char) :
    countOccurrences (a :: rest) (a :: rest ++ z)
      = 1 + countOccurrences (a :: rest) (rest ++ z) := by
  have hp : (a :: rest) <+: a :: (rest ++ z) := List.prefix_append (a :: rest) z
  rw [List.cons_append, countOccurrences_cons, if_pos hp]

/-- A decidable criterion: every non-empty suffix of `x` already disagrees with
`pat` at some position. -/
theorem noStart_of_mismatch {pat x : List Char} (z : List Char)
    (h : ∀ t ∈ x.tails, t ≠ [] → ¬ pat <+: t ∧ ¬ t <+: pat) : NoStart pat x z := by
  intro t ht hs hp
  obtain ⟨h1, h2⟩ := h t ((List.mem_tails _ _).mpr hs) ht
  rcases List.prefix_or_prefix_of_prefix hp (List.prefix_append t z) with h3 | h3
  · exact h1 h3
  · exact h2 h3

theorem prefix_of_prefix_append_cons {c : Char} {z : List Char} :
    ∀ (rest x : List Char), c ∉ rest → rest <+: x ++ c :: z → rest <+: x
  | [], _, _, _ => List.nil_prefix
  | r :: rs, [], hc, hp => by
    simp only [List.nil_append, List.cons_prefix_cons] at hp
    exact absurd (by simp [hp.1]) hc
  | r :: rs, x0 :: x, hc, hp => by
    simp only [List.cons_append, List.cons_prefix_cons] at hp
    have hrs : c ∉ rs := fun hm => hc (List.mem_cons_of_mem _ hm)
    exact List.cons_prefix_cons.mpr ⟨hp.1, prefix_of_prefix_append_cons rs x hrs hp.2⟩

/-- When `z` starts with a character that occurs in `pat` only at its head, a
copy of `pat` starting inside `x` lies wholly inside `x`. -/
theorem noStart_of_infix_free {a c : Char} {rest x : List Char} (z : List Char)
    (hc : c ∉ rest) (hx : ¬ (a :: rest) <:+: x) : NoStart (a :: rest) x (c :: z) := by
  intro t ht hs hp
  cases t with
  | nil => exact ht rfl
  | cons t0 t =>
    simp only [List.cons_append, List.cons_prefix_cons] at hp
    have h1 : rest <+: t := prefix_of_prefix_append_cons rest t hc hp.2
    have h2 : (a :: rest) <+: t0 :: t := List.cons_prefix_cons.mpr ⟨hp.1, h1⟩
    exact hx (h2.isInfix.trans hs.isInfix)

theorem noStart_nil_right {pat x : List Char} (hx : ¬ pat <:+: x) : NoStart pat x [] := by
  intro t _ hs hp
  rw [List.append_nil] at hp
  exact hx (hp.isInfix.trans hs.isInfix)

theorem countOccurrences_of_infix_free {pat x : List Char} (hne : pat ≠ [])
    (hx : ¬ pat <:+: x) : countOccurrences pat x = 0 := by
  have := countOccurrences_append_noStart (noStart_nil_right hx)
  rw [List.append_nil] at this
  rw [this]
  cases pat with
  | nil => exact absurd rfl hne
  | cons a rest => rfl

theorem removeAll_of_infix_free {pat x : List Char} (hx : ¬ pat <:+: x) :
    removeAll pat x = x := by
  have := removeAll_append_noStart (noStart_nil_right hx)
  rw [List.append_nil] at this
  rw [this]
  simp [removeAll, removeAllAux]

/-! ## The markers inside an emphasized word -/

theorem countOccurrences_open_marked {p s : List Char} (hp : ¬ strongOpen <:+: p)
    (hs : ¬ strongOpen <:+: s) :
    countOccurrences strongOpen (strongOpen ++ (p ++ (strongClose ++ s))) = 1 := by
  have e1 : countOccurrences strongOpen (strongOpen ++ (p ++ (strongClose ++ s)))
      = 1 + countOccurrences strongOpen (['s', 't', 'r', 'o', 'n', 'g', '>'] ++ (p ++ (strongClose ++ s))) :=
    countOccurrences_match '<' ['s', 't', 'r', 'o', 'n', 'g', '>'] (p ++ (strongClose ++ s))
  have e2 : countOccurrences strongOpen
      (['s', 't', 'r', 'o', 'n', 'g', '>'] ++ (p ++ (strongClose ++ s)))
      = countOccurrences strongOpen (p ++ (strongClose ++ s)) :=
    countOccurrences_append_noStart (noStart_of_mismatch _ (by decide))
  have e3 : countOccurrences strongOpen (p ++ (strongClose ++ s))
      = countOccurrences strongOpen (strongClose ++ s) :=
    countOccurrences_append_noStart
      (noStart_of_infix_free (['/', 's', 't', 'r', 'o', 'n', 'g', '>'] ++ s) (by decide) hp)
  have e4 : countOccurrences strongOpen (strongClose ++ s) = countOccurrences strongOpen s :=
    countOccurrences_append_noStart (noStart_of_mismatch _ (by decide))
  have e5 := countOccurrences_of_infix_free (by decide) hs
  rw [e1, e2, e3, e4, e5]

theorem countOccurrences_close_marked {p s : List Char} (hp : ¬ strongClose <:+: p)
    (hs : ¬ strongClose <:+: s) :
    countOccurrences strongClose (strongOpen ++ (p ++ (strongClose ++ s))) = 1 := by
  have e1 : countOccurrences strongClose (strongOpen ++ (p ++ (strongClose ++ s)))
      = countOccurrences strongClose (p ++ (strongClose ++ s)) :=
    countOccurrences_append_noStart (noStart_of_mismatch _ (by decide))
  have e2 : countOccurrences strongClose (p ++ (strongClose ++ s))
      = countOccurrences strongClose (strongClose ++ s) :=
    countOccurrences_append_noStart
      (noStart_of_infix_free (['/', 's', 't', 'r', 'o', 'n', 'g', '>'] ++ s) (by decide) hp)
  have e3 : countOccurrences strongClose (strongClose ++ s)
      = 1 + countOccurrences strongClose (['/', 's', 't', 'r', 'o', 'n', 'g', '>'] ++ s) :=
    countOccurrences_match '<' ['/', 's', 't', 'r', 'o', 'n', 'g', '>'] s
  have e4 : countOccurrences strongClose (['/', 's', 't', 'r', 'o', 'n', 'g', '>'] ++ s)
      = countOccurrences strongClose s :=
    countOccurrences_append_noStart (noStart_of_mismatch _ (by decide))
  have e5 := countOccurrences_of_infix_free (by decide) hs
  rw [e1, e2, e3, e4, e5]

theorem removeAll_open_marked {p s : List Char} (hp : ¬ strongOpen <:+: p)
    (hs : ¬ strongOpen <:+: s) :
    removeAll strongOpen (strongOpen ++ (p ++ (strongClose ++ s))) = p ++ (strongClose ++ s) := by
  have e1 : removeAll strongOpen (strongOpen ++ (p ++ (strongClose ++ s)))
      = removeAll strongOpen (p ++ (strongClose ++ s)) :=
    removeAll_match '<' ['s', 't', 'r', 'o', 'n', 'g', '>'] (p ++ (strongClose ++ s))
  have e2 : removeAll strongOpen (p ++ (strongClose ++ s))
      = p ++ removeAll strongOpen (strongClose ++ s) :=
    removeAll_append_noStart
      (noStart_of_infix_free (['/', 's', 't', 'r', 'o', 'n', 'g', '>'] ++ s) (by decide) hp)
  have e3 : removeAll strongOpen (strongClose ++ s) = strongClose ++ removeAll strongOpen s :=
    removeAll_append_noStart (noStart_of_mismatch _ (by decide))
  have e4 := removeAll_of_infix_free hs
  rw [e1, e2, e3, e4]

theorem removeAll_close_marked {p s : List Char} (hp : ¬ strongClose <:+: p)
    (hs : ¬ strongClose <:+: s) :
    removeAll strongClose (p ++ (strongClose ++ s)) = p ++ s := by
  have e1 : removeAll strongClose (p ++ (strongClose ++ s))
      = p ++ removeAll strongClose (strongClose ++ s) :=
    removeAll_append_noStart
      (noStart_of_infix_free (['/', 's', 't', 'r', 'o', 'n', 'g', '>'] ++ s) (by decide) hp)
  have e2 : removeAll strongClose (strongClose ++ s) = removeAll strongClose s :=
    removeAll_match '<' ['/', 's', 't', 'r', 'o', 'n', 'g', '>'] s
  have e3 := removeAll_of_infix_free hs
  rw [e1, e2, e3]

theorem not_infix_take {pat w : List Char} (k : Nat) (h : ¬ pat <:+: w) :
    ¬ pat <:+: w.take k :=
  fun hh => h (hh.trans (List.take_prefix k w).isInfix)

theorem not_infix_drop {pat w : List Char} (k : Nat) (h : ¬ pat <:+: w) :
    ¬ pat <:+: w.drop k :=
  fun hh => h (hh.trans (List.drop_suffix k w).isInfix)

/-- Stripping the markers from the emphasized form of a marker-free word gives
the word back. -/
theorem stripMarkers_emphasized {w : List Char} (ho : ¬ strongOpen <:+: w)
    (hc : ¬ strongClose <:+: w) : stripMarkers (emphasized w) = w := by
  unfold stripMarkers emphasized
  split
  · rw [removeAll_of_infix_free ho, removeAll_of_infix_free hc]
  · rw [List.append_assoc, List.append_assoc,
      removeAll_open_marked (not_infix_take _ ho) (not_infix_drop _ ho),
      removeAll_close_marked (not_infix_take _ hc) (not_infix_drop _ hc),
      List.take_append_drop]

/-! ## Facts about tokens -/

theorem splitOnP_forall_not (p : Char → Bool) (l : List Char) :
    ∀ t ∈ l.splitOnP p, ∀ c ∈ t, p c = false := by
  induction l with
  | nil => simp
  | cons x xs ih =>
    rw [List.splitOnP_cons]
    by_cases hx : p x = true
    · simp only [hx, if_true, List.mem_cons]
      rintro t (rfl | ht) c hc
      · simp at hc
      · exact ih t ht c hc
    · simp only [hx, Bool.false_eq_true, if_false]
      cases hsp : xs.splitOnP p with
      | nil => simp [List.modifyHead]
      | cons h tl =>
        rw [hsp] at ih
        simp only [List.modifyHead, List.mem_cons]
        rintro t (rfl | ht) c hc
        · rcases List.mem_cons.mp hc with rfl | hc
          · simpa using hx
          · exact ih h (List.mem_cons_self _ _) c hc
        · exact ih t (List.mem_cons_of_mem _ ht) c hc

theorem tokens_ne_nil {text t : List Char} (h : t ∈ tokens text) : t ≠ [] := by
  have := (List.mem_filter.mp h).2
  intro ht
  simp [ht] at this

theorem tokens_no_space {text t : List Char} (h : t ∈ tokens text) :
    ∀ c ∈ t, isspace c = false :=
  splitOnP_forall_not isspace text t (List.mem_filter.mp h).1

theorem space_not_mem_emphasized {w : List Char} (h : ∀ c ∈ w, isspace c = false) :
    ' ' ∉ emphasized w := by
  have hw : ' ' ∉ w := fun hm => by
    have := h ' ' hm
    exact absurd this (by decide)
  unfold emphasized
  split
  · exact hw
  · simp only [List.mem_append, not_or]
    exact ⟨⟨⟨by decide, fun hm => hw (List.mem_of_mem_take hm)⟩, by decide⟩,
      fun hm => hw (List.mem_of_mem_drop hm)⟩

theorem tokens_eq_nil_iff (text : List Char) :
    tokens text = [] ↔ ∀ c ∈ text, isspace c = true := by
  induction text with
  | nil => simp [tokens_nil]
  | cons c cs ih =>
    by_cases hc : isspace c = true
    · rw [tokens_cons_space hc, ih]
      simp [hc]
    · have hc2 : isspace c = false := by simpa using hc
      rw [tokens_cons_nonspace hc2]
      simp [hc2]

theorem intercalate_ne_nil {sep a : List Char} (as : List (List Char)) (h : a ≠ []) :
    sep.intercalate (a :: as) ≠ [] := by
  cases as with
  | nil => simpa [List.intercalate] using h
  | cons b bs => simp [List.intercalate, List.intersperse, h]

/-- The result of the loop does not depend on the fuel once it exceeds the
length of the unread input. -/
theorem whileLoop_fuel_irrelevant (fuel₁ fuel₂ : Nat) (ss result : List Char)
    (h₁ : ss.length < fuel₁) (h₂ : ss.length < fuel₂) :
    whileLoop fuel₁ ss result = whileLoop fuel₂ ss result := by
  rw [whileLoop_fuel _ _ _ h₁, whileLoop_fuel _ _ _ h₂]

/-! ## Recovering the word from its emphasized form -/

theorem emphasized_length (w : List Char) :
    (emphasized w).length = if w.length ≤ 2 then w.length else w.length + 17 := by
  have hk := exactBoldLength_le w.length
  unfold emphasized
  split
  · rfl
  · simp only [List.length_append, List.length_take, List.length_drop, strongOpen,
      strongClose, List.length_cons, List.length_nil]
    omega

/-- The emphasized form determines the word: its length tells whether markers
were added and, if so, where the word was cut. -/
theorem emphasized_injective {w₁ w₂ : List Char} (h : emphasized w₁ = emphasized w₂) :
    w₁ = w₂ := by
  have hlen := congrArg List.length h
  rw [emphasized_length, emphasized_length] at hlen
  by_cases h₁ : w₁.length ≤ 2
  · by_cases h₂ : w₂.length ≤ 2
    · rwa [emphasized_short h₁, emphasized_short h₂] at h
    · rw [if_pos h₁, if_neg h₂] at hlen
      omega
  · by_cases h₂ : w₂.length ≤ 2
    · rw [if_neg h₁, if_pos h₂] at hlen
      omega
    · rw [if_neg h₁, if_neg h₂] at hlen
      have hL : w₁.length = w₂.length := by omega
      rw [emphasized_long (by omega), emphasized_long (by omega), hL] at h
      simp only [List.append_assoc] at h
      have h' := List.append_cancel_left h
      have hk := exactBoldLength_le w₂.length
      have htake : (w₁.take (exactBoldLength w₂.length)).length
          = (w₂.take (exactBoldLength w₂.length)).length := by
        rw [List.length_take, List.length_take, hL]
      obtain ⟨e₁, e₂⟩ := List.append_inj h' htake
      have e₃ := List.append_cancel_left e₂
      calc w₁ = w₁.take (exactBoldLength w₂.length) ++ w₁.drop (exactBoldLength w₂.length) :=
            (List.take_append_drop _ _).symm
        _ = w₂.take (exactBoldLength w₂.length) ++ w₂.drop (exactBoldLength w₂.length) := by rw [e₁, e₃]
        _ = w₂ := List.take_append_drop _ _

/-! ## Tokens of a concatenation -/

theorem splitOnP_append_cons (p : Char → Bool) (a : List Char) {sep : Char}
    (hsep : p sep = true) (b : List Char) :
    (a ++ sep :: b).splitOnP p = a.splitOnP p ++ b.splitOnP p := by
  induction a with
  | nil => simp [List.splitOnP_cons, hsep]
  | cons x xs ih =>
    rw [List.cons_append, List.splitOnP_cons, List.splitOnP_cons, ih]
    by_cases hx : p x = true
    · simp [hx]
    · simp only [hx, Bool.false_eq_true, if_false]
      cases hsp : xs.splitOnP p with
      | nil => exact absurd hsp (List.splitOnP_ne_nil p xs)
      | cons h t => rfl

theorem tokens_append_cons_space (a : List Char) {sep : Char} (hsep : isspace sep = true)
    (b : List Char) : tokens (a ++ sep :: b) = tokens a ++ tokens b := by
  simp only [tokens, splitOnP_append_cons isspace a hsep b, List.filter_append]

theorem tokens_space_append {s : List Char} (hs : ∀ c ∈ s, isspace c = true) (b : List Char) :
    tokens (s ++ b) = tokens b := by
  induction s with
  | nil => rfl
  | cons c cs ih =>
    rw [List.cons_append, tokens_cons_space (hs c (List.mem_cons_self _ _))]
    exact ih (fun x hx => hs x (List.mem_cons_of_mem _ hx))

/-- Tokens do not cross a non-empty run of whitespace. -/
theorem tokens_append_space_append (a b : List Char) {s : List Char} (hne : s ≠ [])
    (hs : ∀ c ∈ s, isspace c = true) : tokens (a ++ s ++ b) = tokens a ++ tokens b := by
  cases s with
  | nil => exact absurd rfl hne
  | cons c cs =>
    rw [List.append_assoc, List.cons_append,
      tokens_append_cons_space a (hs c (List.mem_cons_self _ _)),
      tokens_space_append (fun x hx => hs x (List.mem_cons_of_mem _ hx))]

theorem intercalate_cons_cons (sep a b : List Char) (bs : List (List Char)) :
    sep.intercalate (a :: b :: bs) = a ++ sep ++ sep.intercalate (b :: bs) := by
  simp [List.intercalate, List.intersperse]

theorem intercalate_singleton (sep a : List Char) : sep.intercalate [a] = a := by
  simp [List.intercalate]

theorem intercalate_append (sep : List Char) (xs ys : List (List Char)) (hx : xs ≠ [])
    (hy : ys ≠ []) :
    sep.intercalate (xs ++ ys) = sep.intercalate xs ++ sep ++ sep.intercalate ys := by
  induction xs with
  | nil => exact absurd rfl hx
  | cons a as ih =>
    cases as with
    | nil =>
      cases ys with
      | nil => exact absurd rfl hy
      | cons b bs => rw [List.singleton_append, intercalate_cons_cons, intercalate_singleton]
    | cons c cs =>
      rw [List.cons_append, List.cons_append, intercalate_cons_cons, intercalate_cons_cons,
        ← List.cons_append, ih (by simp)]
      simp only [List.append_assoc]

/-! ## The shape of a list of words joined by single spaces -/

theorem emphasized_no_space {w : List Char} (h : ∀ c ∈ w, isspace c = false) :
    ∀ c ∈ emphasized w, isspace c = false := by
  intro c hc
  unfold emphasized at hc
  split at hc
  · exact h c hc
  · simp only [List.mem_append] at hc
    rcases hc with ((hc | hc) | hc) | hc
    · revert c; decide
    · exact h c (List.mem_of_mem_take hc)
    · revert c; decide
    · exact h c (List.mem_of_mem_drop hc)

theorem emphasized_tokens_words (text : List Char) :
    ∀ p ∈ (tokens text).map emphasized, p ≠ [] ∧ ∀ c ∈ p, isspace c = false := by
  intro p hp
  obtain ⟨t, ht, rfl⟩ := List.mem_map.mp hp
  exact ⟨emphasized_ne_nil (tokens_ne_nil ht), emphasized_no_space (tokens_no_space ht)⟩

theorem tokens_intercalate (ps : List (List Char))
    (hp : ∀ p ∈ ps, p ≠ [] ∧ ∀ c ∈ p, isspace c = false) :
    tokens ([' '].intercalate ps) = ps := by
  induction ps with
  | nil => simp [List.intercalate, tokens_nil]
  | cons a as ih =>
    have ha := hp a (List.mem_cons_self _ _)
    cases as with
    | nil => rw [intercalate_singleton, tokens_word ha.1 ha.2]
    | cons b bs =>
      rw [intercalate_cons_cons, List.append_assoc, List.singleton_append,
        tokens_word_space ha.1 ha.2 (by decide),
        ih (fun q hq => hp q (List.mem_cons_of_mem _ hq))]

theorem mem_intercalate {sep : List Char} {c : Char} (ps : List (List Char))
    (h : c ∈ sep.intercalate ps) : c ∈ sep ∨ ∃ p ∈ ps, c ∈ p := by
  induction ps with
  | nil => simp [List.intercalate] at h
  | cons a as ih =>
    cases as with
    | nil =>
      rw [intercalate_singleton] at h
      exact Or.inr ⟨a, List.mem_cons_self _ _, h⟩
    | cons b bs =>
      rw [intercalate_cons_cons] at h
      simp only [List.mem_append] at h
      rcases h with (h | h) | h
      · exact Or.inr ⟨a, List.mem_cons_self _ _, h⟩
      · exact Or.inl h
      · rcases ih h with h | ⟨q, hq, hc⟩
        · exact Or.inl h
        · exact Or.inr ⟨q, List.mem_cons_of_mem _ hq, hc⟩

theorem intercalate_head (ps : List (List Char))
    (hp : ∀ p ∈ ps, p ≠ [] ∧ ∀ c ∈ p, isspace c = false) :
    ∀ c, ([' '].intercalate ps).head? = some c → isspace c = false := by
  intro c hc
  cases ps with
  | nil => simp [List.intercalate] at hc
  | cons a as =>
    have ha := hp a (List.mem_cons_self _ _)
    have hhead : ([' '].intercalate (a :: as)).head? = a.head? := by
      cases as with
      | nil => rw [intercalate_singleton]
      | cons b bs =>
        rw [intercalate_cons_cons, List.append_assoc, List.head?_append_of_ne_nil _ ha.1]
    rw [hhead] at hc
    exact ha.2 c (List.mem_of_mem_head? hc)

theorem intercalate_getLast (ps : List (List Char))
    (hp : ∀ p ∈ ps, p ≠ [] ∧ ∀ c ∈ p, isspace c = false) :
    ∀ c, ([' '].intercalate ps).getLast? = some c → isspace c = false := by
  induction ps with
  | nil => intro c hc; simp [List.intercalate] at hc
  | cons a as ih =>
    have ha := hp a (List.mem_cons_self _ _)
    cases as with
    | nil =>
      intro c hc
      rw [intercalate_singleton] at hc
      exact ha.2 c (List.mem_of_mem_getLast? hc)
    | cons b bs =>
      intro c hc
      have hb := hp b (List.mem_cons_of_mem _ (List.mem_cons_self _ _))
      have hne : [' '].intercalate (b :: bs) ≠ [] := intercalate_ne_nil bs hb.1
      rw [intercalate_cons_cons, List.getLast?_append_of_ne_nil _ hne] at hc
      exact ih (fun q hq => hp q (List.mem_cons_of_mem _ hq)) c hc

theorem no_double_space_append {p r : List Char} (hp : ∀ c ∈ p, isspace c = false)
    (hr : ∀ c, r.head? = some c → isspace c = false) (hrr : ¬ [' ', ' '] <:+: r) :
    ¬ [' ', ' '] <:+: p ++ ' ' :: r := by
  induction p with
  | nil =>
    rw [List.nil_append, List.infix_cons_iff]
    rintro (h | h)
    · rw [List.cons_prefix_cons] at h
      cases r with
      | nil => simp at h
      | cons r0 rs =>
        rw [List.cons_prefix_cons] at h
        have := hr r0 rfl
        rw [← h.2.1] at this
        exact absurd this (by decide)
    · exact hrr h
  | cons c cs ih =>
    rw [List.cons_append, List.infix_cons_iff]
    rintro (h | h)
    · rw [List.cons_prefix_cons] at h
      have := hp c (List.mem_cons_self _ _)
      rw [← h.1] at this
      exact absurd this (by decide)
    · exact ih (fun x hx => hp x (List.mem_cons_of_mem _ hx)) h

theorem no_double_space_word {p : List Char} (hp : ∀ c ∈ p, isspace c = false) :
    ¬ [' ', ' '] <:+: p := by
  intro h
  have := hp ' ' (h.subset (List.mem_cons_self _ _))
  exact absurd this (by decide)

theorem intercalate_no_double_space (ps : List (List Char))
    (hp : ∀ p ∈ ps, p ≠ [] ∧ ∀ c ∈ p, isspace c = false) :
    ¬ [' ', ' '] <:+: [' '].intercalate ps := by
  induction ps with
  | nil => simp [List.intercalate]
  | cons a as ih =>
    have ha := hp a (List.mem_cons_self _ _)
    cases as with
    | nil => rw [intercalate_singleton]; exact no_double_space_word ha.2
    | cons b bs =>
      have hrest : ∀ q ∈ b :: bs, q ≠ [] ∧ ∀ c ∈ q, isspace c = false :=
        fun q hq => hp q (List.mem_cons_of_mem _ hq)
      rw [intercalate_cons_cons, List.append_assoc, List.singleton_append]
      exact no_double_space_append ha.2 (intercalate_head _ hrest) (ih hrest)

/-! ## The binary64 evaluation of `calculateCognitiveLoad` -/

theorem roundBinary64_shift {m s : Nat} (h1 : 2 ^ (52 + s) ≤ m) (h2 : m < 2 ^ (53 + s)) :
    (Nat.log2 m + 1) - 53 = s := by
  have hm : m ≠ 0 := by
    have := Nat.two_pow_pos (52 + s)
    omega
  have a := (Nat.log2_lt hm).mpr h2
  have b : ¬ Nat.log2 m < 52 + s := by
    rw [Nat.log2_lt hm]; omega
  omega

/-- The rounding of a number with `53 + s` significant bits, written out. -/
theorem roundBinary64_eq {m s : Nat} (h1 : 2 ^ (52 + s) ≤ m) (h2 : m < 2 ^ (53 + s)) :
    roundBinary64 m
      = (if 2 ^ s < 2 * (m % 2 ^ s) then m / 2 ^ s + 1
          else if 2 * (m % 2 ^ s) = 2 ^ s then m / 2 ^ s + m / 2 ^ s % 2 else m / 2 ^ s)
        * 2 ^ s := by
  have hs := roundBinary64_shift h1 h2
  unfold roundBinary64
  simp only [hs]

/-- The product `5 * 0.05` in units of `2 ^ (-57)` rounds to `2 ^ 55`, which
is `0.25`. -/
theorem roundBinary64_five : roundBinary64 36028797018963970 = 36028797018963968 := by
  rw [roundBinary64_eq (s := 3) (by norm_num) (by norm_num)]
  decide

theorem calculateCognitiveLoad_bound (n : Nat) :
    20 * roundBinary64 (roundBinary64 n * 7205759403792794) ≤ 2 ^ 57 * n + 64 * n ∧
      2 ^ 57 * n ≤ 20 * roundBinary64 (roundBinary64 n * 7205759403792794) + 64 * n := by
  have h1 := roundBinary64_relative n
  have h2 := roundBinary64_relative (roundBinary64 n * 7205759403792794)
  generalize roundBinary64 (roundBinary64 n * 7205759403792794) = v at *
  generalize roundBinary64 n = x at *
  omega

/-- The binary64 result is within the fraction `2 ^ (-51)` of the exact
product `length / 20`. -/
theorem calculateCognitiveLoad_close (text : List Char) :
    |calculateCognitiveLoad text - (text.length : ℚ) / 20|
      ≤ (text.length : ℚ) / 20 / 2 ^ 51 := by
  obtain ⟨h1, h2⟩ := calculateCognitiveLoad_bound text.length
  unfold calculateCognitiveLoad
  generalize roundBinary64 (roundBinary64 text.length * 7205759403792794) = v at *
  have q1 : (20 : ℚ) * v ≤ 2 ^ 57 * text.length + 64 * text.length := by exact_mod_cast h1
  have q2 : (2 : ℚ) ^ 57 * text.length ≤ 20 * v + 64 * text.length := by exact_mod_cast h2
  rw [abs_le]
  constructor
  · norm_num at q1 q2 ⊢
    linarith
  · norm_num at q1 q2 ⊢
    linarith

theorem calculateCognitiveLoad_hello :
    calculateCognitiveLoad "hello".toList = 0.25 := by
  have h5 : "hello".toList.length = 5 := by decide
  have h : (5 : Nat) * 7205759403792794 = 36028797018963970 := by norm_num
  unfold calculateCognitiveLoad
  rw [h5, roundBinary64_of_lt (m := 5) (by norm_num), h, roundBinary64_five]
  norm_num

theorem calculateCognitiveLoad_nil : calculateCognitiveLoad [] = 0 := by
  unfold calculateCognitiveLoad
  rw [List.length_nil, roundBinary64_of_lt (m := 0) (by norm_num), Nat.zero_mul,
    roundBinary64_of_lt (m := 0) (by norm_num)]
  norm_num

/-! ## Long tokens -/

theorem splitOnP_length_le (p : Char → Bool) (l : List Char) :
    ∀ t ∈ l.splitOnP p, t.length ≤ l.length := by
  induction l with
  | nil => simp
  | cons x xs ih =>
    rw [List.splitOnP_cons]
    by_cases hx : p x = true
    · simp only [hx, if_true, List.mem_cons]
      rintro t (rfl | ht)
      · simp
      · have := ih t ht
        simp only [List.length_cons]
        omega
    · simp only [hx, Bool.false_eq_true, if_false]
      cases hsp : xs.splitOnP p with
      | nil => simp [List.modifyHead]
      | cons h tl =>
        rw [hsp] at ih
        simp only [List.modifyHead, List.mem_cons]
        rintro t (rfl | ht)
        · have := ih h (List.mem_cons_self _ _)
          simp only [List.length_cons]
          omega
        · have := ih t (List.mem_cons_of_mem _ ht)
          simp only [List.length_cons]
          omega

theorem tokens_length_le {text t : List Char} (h : t ∈ tokens text) :
    t.length ≤ text.length :=
  splitOnP_length_le isspace text t (List.mem_filter.mp h).1

/-- A text of at most 5368709117 characters is formatted without error. -/
theorem applyBionicReading_of_le {text : List Char} (h : text.length ≤ 5368709117) :
    applyBionicReading text = some ([' '].intercalate ((tokens text).map emphasized)) :=
  applyBionicReading_eq_some_iff.mpr
    ⟨fun _ ht => Nat.le_trans (tokens_length_le ht) h, rfl⟩

theorem hugeWord_length (c : Char) : (hugeWord c).length = 5368709118 :=
  List.length_replicate _ _

theorem hugeWord_ne_nil (c : Char) : hugeWord c ≠ [] := by
  intro h
  have := congrArg List.length h
  rw [hugeWord_length] at this
  exact absurd this (by decide)

theorem hugeWord_ne : hugeWord 'a' ≠ hugeWord 'b' := by
  intro h
  have ha : 'a' ∈ hugeWord 'a' := List.mem_replicate.mpr ⟨by decide, rfl⟩
  rw [h] at ha
  exact absurd (List.eq_of_mem_replicate ha) (by decide)

theorem tokens_hugeWord {c : Char} (hc : isspace c = false) :
    tokens (hugeWord c) = [hugeWord c] :=
  tokens_word (hugeWord_ne_nil c) (fun x hx => by rw [List.eq_of_mem_replicate hx]; exact hc)

theorem boldLengthBinary64_huge : boldLengthBinary64 5368709118 = 2147483648 := by
  rw [boldLengthBinary64_exact (by norm_num)]
  decide

theorem boldLength_huge : boldLength 5368709118 = none := by
  rw [boldLength_eq]; decide

theorem processWord_hugeWord (c : Char) : processWord (hugeWord c) = none :=
  processWord_of_gt (by rw [hugeWord_length]; decide)

theorem applyBionicReading_hugeWord {c : Char} (hc : isspace c = false) :
    applyBionicReading (hugeWord c) = none :=
  applyBionicReading_eq_none_iff.mpr
    ⟨hugeWord c, by rw [tokens_hugeWord hc]; exact List.mem_cons_self _ _,
      by rw [hugeWord_length]; decide⟩

/-! ## Where `calculateCognitiveLoad` is exact -/

/-- The product of a multiple of five: `k * (2 ^ 55 + 2)` rounds to
`k * 2 ^ 55`. -/
theorem roundBinary64_exact_five {k : Nat} (hk0 : 0 < k) (hk : k < 2 ^ 53) :
    roundBinary64 (k * 2 ^ 55 + 2 * k) = k * 2 ^ 55 := by
  have hkne : k ≠ 0 := Nat.pos_iff_ne_zero.mp hk0
  have hb1 : 2 ^ Nat.log2 k ≤ k := Nat.log2_self_le hkne
  have hb2 : k < 2 ^ (Nat.log2 k + 1) := Nat.lt_log2_self
  have hb : Nat.log2 k < 53 := (Nat.log2_lt hkne).mpr hk
  generalize Nat.log2 k = b at *
  have hmne : k * 2 ^ 55 + 2 * k ≠ 0 := by omega
  have hlog : Nat.log2 (k * 2 ^ 55 + 2 * k) = b + 55 := by
    have h1 : Nat.log2 (k * 2 ^ 55 + 2 * k) < b + 56 := by
      rw [Nat.log2_lt hmne]
      have : k + 1 ≤ 2 ^ (b + 1) := hb2
      calc k * 2 ^ 55 + 2 * k < (k + 1) * 2 ^ 55 := by omega
        _ ≤ 2 ^ (b + 1) * 2 ^ 55 := Nat.mul_le_mul_right _ this
        _ = 2 ^ (b + 56) := by rw [← pow_add]
    have h2 : ¬ Nat.log2 (k * 2 ^ 55 + 2 * k) < b + 55 := by
      rw [Nat.log2_lt hmne, not_lt]
      calc 2 ^ (b + 55) = 2 ^ b * 2 ^ 55 := by rw [pow_add]
        _ ≤ k * 2 ^ 55 := Nat.mul_le_mul_right _ hb1
        _ ≤ k * 2 ^ 55 + 2 * k := Nat.le_add_right _ _
    omega
  have hs : (Nat.log2 (k * 2 ^ 55 + 2 * k) + 1) - 53 = b + 3 := by omega
  have hsplit : (2 : Nat) ^ 55 = 2 ^ (52 - b) * 2 ^ (b + 3) := by
    rw [← pow_add]; congr 1; omega
  have hpow : (2 : Nat) ^ (b + 3) = 4 * 2 ^ (b + 1) := by
    rw [pow_succ, pow_succ]; ring
  have hklt : 2 * k < 2 ^ (b + 3) := by omega
  have hk2 : 2 * (2 * k) < 2 ^ (b + 3) := by omega
  have hm : k * 2 ^ 55 + 2 * k = 2 * k + (k * 2 ^ (52 - b)) * 2 ^ (b + 3) := by
    rw [hsplit]; ring
  have hq : (k * 2 ^ 55 + 2 * k) / 2 ^ (b + 3) = k * 2 ^ (52 - b) := by
    rw [hm, Nat.add_mul_div_right _ _ (Nat.two_pow_pos _), Nat.div_eq_of_lt hklt, Nat.zero_add]
  have hr : (k * 2 ^ 55 + 2 * k) % 2 ^ (b + 3) = 2 * k := by
    rw [hm, Nat.add_mul_mod_self_right, Nat.mod_eq_of_lt hklt]
  unfold roundBinary64
  simp only [hs, hq, hr]
  rw [if_neg (by omega), if_neg (by omega), Nat.mul_assoc, ← hsplit]

/-- For a length that is a multiple of 5 the binary64 product is the exact
`length / 20`. -/
theorem calculateCognitiveLoad_exact {text : List Char} (h5 : 5 ∣ text.length)
    (hlt : text.length < 2 ^ 53) :
    calculateCognitiveLoad text = (text.length : ℚ) / 20 := by
  obtain ⟨j, hj⟩ := h5
  unfold calculateCognitiveLoad
  rw [roundBinary64_of_lt hlt, hj]
  rcases Nat.eq_zero_or_pos j with h0 | hpos
  · subst h0
    rw [Nat.mul_zero, Nat.zero_mul, roundBinary64_of_lt (m := 0) (by norm_num)]
    norm_num
  · have hm : 5 * j * 7205759403792794 = j * 2 ^ 55 + 2 * j := by omega
    rw [hm, roundBinary64_exact_five hpos (by omega)]
    push_cast
    ring

/-- The binary64 product can be the exact `length / 20` only for a length that
is a multiple of 5. -/
theorem calculateCognitiveLoad_dvd {text : List Char}
    (h : calculateCognitiveLoad text = (text.length : ℚ) / 20) : 5 ∣ text.length := by
  unfold calculateCognitiveLoad at h
  generalize roundBinary64 (roundBinary64 text.length * 7205759403792794) = v at h
  have h57 : (2 : ℚ) ^ 57 ≠ 0 := by positivity
  rw [div_eq_div_iff h57 (by norm_num)] at h
  have h1 : (20 : ℚ) * v = 2 ^ 57 * text.length := by linarith
  have h2 : 20 * v = 2 ^ 57 * text.length := by exact_mod_cast h1
  have h3 : 5 ∣ 2 ^ 57 * text.length := ⟨4 * v, by rw [← h2]; ring⟩
  exact (Nat.Coprime.pow_right 57 (by decide : Nat.Coprime 5 2)).dvd_of_dvd_mul_left h3

theorem roundBinary64_three : roundBinary64 21617278211378382 = 21617278211378384 := by
  rw [roundBinary64_eq (s := 2) (by norm_num) (by norm_num)]
  decide

theorem calculateCognitiveLoad_abc :
    calculateCognitiveLoad "abc".toList = 1351079888211149 / 2 ^ 53 := by
  have h3 : "abc".toList.length = 3 := by decide
  have h : (3 : Nat) * 7205759403792794 = 21617278211378382 := by norm_num
  unfold calculateCognitiveLoad
  rw [h3, roundBinary64_of_lt (m := 3) (by norm_num), h, roundBinary64_three]
  norm_num

/-! ## Results of `processWord` on a list of words -/

theorem mapM_eq_some_iff_forall₂ {α β : Type} (f : α → Option β) (l : List α) (ps : List β) :
    l.mapM f = some ps ↔ List.Forall₂ (fun a b => f a = some b) l ps := by
  induction l generalizing ps with
  | nil =>
    rw [List.mapM_nil, List.forall₂_nil_left_iff]
    constructor
    · intro e; exact (Option.some.inj e).symm
    · rintro rfl; rfl
  | cons a as ih =>
    rw [List.mapM_cons, List.forall₂_cons_left_iff]
    cases ha : f a with
    | none =>
      constructor
      · intro e; exact absurd e (by simp)
      · rintro ⟨b, u, hb, _, _⟩; exact absurd hb (by simp)
    | some b =>
      cases hm : as.mapM f with
      | none =>
        constructor
        · intro e; exact absurd e (by simp)
        · rintro ⟨b', u, _, hu, _⟩
          have := (ih u).mpr hu
          rw [hm] at this
          exact absurd this (by simp)
      | some qs =>
        constructor
        · intro e
          exact ⟨b, qs, rfl, (ih qs).mp hm, (Option.some.inj e).symm⟩
        · rintro ⟨b', u, hb, hu, rfl⟩
          have h1 : b = b' := Option.some.inj hb
          have h3 : some qs = some u := by rw [← hm]; exact (ih u).mpr hu
          rw [h1, Option.some.inj h3]
          rfl

/-! ## What holds within the range of `int`

For words of at most 5368709117 characters the conversion to `int` is defined
and `processWord` does what the specification asks. -/

theorem processWord_long_of_le (word : List Char) (k : Nat) (hlen : 3 ≤ word.length)
    (hmax : word.length ≤ 5368709117)
    (hk : IsLeast {j : Nat | 2 * word.length ≤ 5 * j} k) :
    k = ⌈(word.length : ℚ) * (4 / 10)⌉₊ ∧ boldLength word.length = some k ∧
      processWord word = some (strongOpen ++ word.take k ++ strongClose ++ word.drop k) := by
  have hk2 : k = exactBoldLength word.length := hk.unique (exactBoldLength_isLeast _)
  subst hk2
  exact ⟨exactBoldLength_eq_ceil _, by rw [boldLength_eq, if_pos hmax],
    by rw [processWord_of_le hmax, emphasized_long hlen]⟩

theorem boldLength_bounds_of_le (n : Nat) (hlen : 3 ≤ n) (hmax : n ≤ 5368709117) :
    ∃ k : Nat, boldLength n = some k ∧ k = ⌈(n : ℚ) * (4 / 10)⌉₊ ∧ 1 ≤ k ∧ k < n :=
  ⟨exactBoldLength n, by rw [boldLength_eq, if_pos hmax], exactBoldLength_eq_ceil n,
    exactBoldLength_pos hlen, exactBoldLength_lt hlen⟩

theorem processWord_total_of_le (word : List Char) (hmax : word.length ≤ 5368709117) :
    ∃ out : List Char, processWord word = some out :=
  ⟨_, processWord_of_le hmax⟩

theorem applyBionicReading_total_of_le (text : List Char) (hmax : text.length ≤ 5368709117) :
    ∃ out : List Char, applyBionicReading text = some out :=
  ⟨_, applyBionicReading_of_le hmax⟩

/-- A text without tokens gives the empty string; an output is empty only for
a text without tokens, and a text with a token and at most 5368709117
characters has a non-empty output. -/
theorem applyBionicReading_empty_of_le (text : List Char) :
    ((∀ c ∈ text, isspace c = true) → applyBionicReading text = some []) ∧
      (applyBionicReading text = some [] ↔ tokens text = []) ∧
      (text.length ≤ 5368709117 → tokens text ≠ [] →
        ∃ out : List Char, applyBionicReading text = some out ∧ out ≠ []) := by
  have hne : tokens text ≠ [] → [' '].intercalate ((tokens text).map emphasized) ≠ [] := by
    intro h
    cases ht : tokens text with
    | nil => exact absurd ht h
    | cons t ts =>
      have hmem : t ∈ tokens text := by rw [ht]; exact List.mem_cons_self _ _
      exact intercalate_ne_nil _ (emphasized_ne_nil (tokens_ne_nil hmem))
  have hnil : tokens text = [] → applyBionicReading text = some [] := by
    intro h
    rw [applyBionicReading_eq, h]
    rfl
  refine ⟨fun h => hnil ((tokens_eq_nil_iff text).mpr h), ⟨?_, hnil⟩, ?_⟩
  · intro h
    by_contra hcon
    exact hne hcon (applyBionicReading_eq_some_iff.mp h).2.symm
  · intro hmax h
    exact ⟨_, applyBionicReading_of_le hmax, hne h⟩

/-- Two words with the same returned string are the same word. -/
theorem processWord_injective_of_some (w₁ w₂ out : List Char)
    (h₁ : processWord w₁ = some out) (h₂ : processWord w₂ = some out) : w₁ = w₂ := by
  have e₁ := (processWord_eq_some_iff.mp h₁).2
  have e₂ := (processWord_eq_some_iff.mp h₂).2
  exact emphasized_injective (e₁.symm.trans e₂)

/-- When `applyBionicReading` returns for `x`, it has the same outcome for `y`
exactly when the two texts have the same tokens. -/
theorem applyBionicReading_eq_iff_of_some (x y out : List Char)
    (hx : applyBionicReading x = some out) :
    applyBionicReading x = applyBionicReading y ↔ tokens x = tokens y := by
  constructor
  · intro h
    obtain ⟨_, e₁⟩ := applyBionicReading_eq_some_iff.mp hx
    obtain ⟨_, e₂⟩ := applyBionicReading_eq_some_iff.mp (h ▸ hx)
    have h' := congrArg tokens (e₁.symm.trans e₂)
    rw [tokens_intercalate _ (emphasized_tokens_words x),
      tokens_intercalate _ (emphasized_tokens_words y)] at h'
    exact List.map_injective_iff.mpr (fun _ _ => emphasized_injective) h'
  · intro h
    rw [applyBionicReading_eq, applyBionicReading_eq, h]

/-! ## The claims -/

/-- C1: for every text, `applyBionicReading` returns the whitespace-delimited
tokens of the text, in input order, each replaced by the result of
`processWord` on it (one piece per token), joined by exactly one space between
consecutive pieces, with nothing before the first or after the last piece; it
ends in an error exactly when `processWord` does on one of the tokens, which
cannot happen for a text of at most 5368709117 characters. -/
theorem applyBionicReading_tokens (text : List Char) :
    applyBionicReading text
        = ((tokens text).mapM processWord).map (fun pieces => [' '].intercalate pieces) ∧
      (∀ pieces : List (List Char),
        (tokens text).mapM processWord = some pieces ↔
          List.Forall₂ (fun token piece => processWord token = some piece)
            (tokens text) pieces) ∧
      (text.length ≤ 5368709117 →
        ∃ pieces : List (List Char), (tokens text).mapM processWord = some pieces) :=
  ⟨applyBionicReading_eq text, fun pieces => mapM_eq_some_iff_forall₂ _ _ pieces,
    fun h => ⟨_, mapM_processWord_of_le (fun _ ht => Nat.le_trans (tokens_length_le ht) h)⟩⟩

/-- C2 fails on the code for a word of 5368709118 characters.  The length is
at least 3 and the least `k` with `5 * k ≥ 2 * L` is 2147483648, which is also
the binary64 value of `std::ceil(L * 0.4)`; it does not fit the `int`
`boldLength`, and `processWord` returns no string. -/
theorem processWord_long_huge :
    3 ≤ (hugeWord 'a').length ∧
      IsLeast {j : Nat | 2 * (hugeWord 'a').length ≤ 5 * j} 2147483648 ∧
      boldLengthBinary64 (hugeWord 'a').length = 2147483648 ∧
      processWord (hugeWord 'a') = none := by
  rw [hugeWord_length]
  refine ⟨by decide, ⟨by decide, fun j hj => ?_⟩, boldLengthBinary64_huge,
    processWord_hugeWord 'a'⟩
  have h : 2 * 5368709118 ≤ 5 * j := hj
  omega

/-- C3: a word of length at most 2 is returned unchanged by `processWord`. -/
theorem processWord_short (word : List Char) (h : word.length ≤ 2) :
    processWord word = some word := by
  rw [processWord_of_le (by omega), emphasized_short h]

/-- Witness for C3: `processWord "it"` is `"it"`. -/
theorem processWord_short_witness :
    "it".toList.length ≤ 2 ∧ processWord "it".toList = some "it".toList :=
  ⟨by decide, processWord_short "it".toList (by decide)⟩

/-- C4 fails on the code at length 5368709118.  The length is at least 3, the
value of `std::ceil(L * 0.4)` is 2147483648, beyond the largest `int`
2147483647, so `boldLength` has no defined value there and no prefix or suffix
is cut. -/
theorem boldLength_bounds_huge :
    3 ≤ (5368709118 : Nat) ∧ exactBoldLength 5368709118 = 2147483648 ∧
      boldLengthBinary64 5368709118 = 2147483648 ∧ ¬ (2147483648 ≤ 2147483647) ∧
      (∀ k : Nat, boldLength 5368709118 ≠ some k) ∧
      (∀ out : List Char, processWord (hugeWord 'a') ≠ some out) := by
  refine ⟨by decide, by decide, boldLengthBinary64_huge, by decide, ?_, ?_⟩
  · intro k h
    rw [boldLength_huge] at h
    exact absurd h (by simp)
  · intro out h
    rw [processWord_hugeWord] at h
    exact absurd h (by simp)

/-- C5 as stated fails: the token `"abcdef<strong>"` (length 14, no whitespace)
is emphasized to `"<strong>abcdef</strong><strong>"`, which contains the open
marker twice, and stripping the markers leaves `"abcdef"`, not the token. -/
theorem processWord_markers_counterexample :
    3 ≤ "abcdef<strong>".toList.length ∧
      processWord "abcdef<strong>".toList = some "<strong>abcdef</strong><strong>".toList ∧
      countOccurrences strongOpen "<strong>abcdef</strong><strong>".toList = 2 ∧
      stripMarkers "<strong>abcdef</strong><strong>".toList = "abcdef".toList ∧
      "abcdef".toList ≠ "abcdef<strong>".toList := by
  refine ⟨by decide, ?_, by decide, by decide, by decide⟩
  rw [processWord_of_le (by decide)]
  decide

/-- C5, amended: for every token of length at least 3 and at most 5368709117
that contains neither marker as a substring, the result of `processWord`
contains exactly one occurrence of `"<strong>"` and exactly one of
`"</strong>"`, and removing both markers from it gives the token back. -/
theorem processWord_markers (token : List Char) (hlen : 3 ≤ token.length)
    (hmax : token.length ≤ 5368709117)
    (ho : ¬ strongOpen <:+: token) (hc : ¬ strongClose <:+: token) :
    ∃ out : List Char, processWord token = some out ∧
      countOccurrences strongOpen out = 1 ∧ countOccurrences strongClose out = 1 ∧
      stripMarkers out = token := by
  refine ⟨emphasized token, processWord_of_le hmax, ?_, ?_, stripMarkers_emphasized ho hc⟩
  · rw [emphasized_long hlen, List.append_assoc, List.append_assoc]
    exact countOccurrences_open_marked (not_infix_take _ ho) (not_infix_drop _ ho)
  · rw [emphasized_long hlen, List.append_assoc, List.append_assoc]
    exact countOccurrences_close_marked (not_infix_take _ hc) (not_infix_drop _ hc)

/-- Witness for C5 (amended): the token `"reading"`. -/
theorem processWord_markers_witness :
    3 ≤ "reading".toList.length ∧ "reading".toList.length ≤ 5368709117 ∧
      ¬ strongOpen <:+: "reading".toList ∧ ¬ strongClose <:+: "reading".toList ∧
      ∃ out : List Char, processWord "reading".toList = some out ∧
        countOccurrences strongOpen out = 1 ∧ countOccurrences strongClose out = 1 ∧
        stripMarkers out = "reading".toList :=
  ⟨by decide, by decide, by decide, by decide,
    processWord_markers "reading".toList (by decide) (by decide) (by decide) (by decide)⟩

/-- C6 as stated fails twice.  For the empty text the output is empty, and
splitting it on spaces gives one empty piece although the text has no token.
For the text `"abcdef<strong>"` the single piece stripped of its markers is
`"abcdef"`, not the token. -/
theorem splitOn_stripMarkers_counterexample :
    (applyBionicReading [] = some [] ∧
      (([] : List Char).splitOn ' ').map stripMarkers = [[]] ∧ tokens [] = []) ∧
    (applyBionicReading "abcdef<strong>".toList
        = some "<strong>abcdef</strong><strong>".toList ∧
      ("<strong>abcdef</strong><strong>".toList.splitOn ' ').map stripMarkers
        = ["abcdef".toList] ∧
      tokens "abcdef<strong>".toList = ["abcdef<strong>".toList]) := by
  refine ⟨⟨?_, by decide, by decide⟩, ?_, by decide, by decide⟩
  · rw [applyBionicReading_of_le (by decide)]
    decide
  · rw [applyBionicReading_of_le (by decide)]
    decide

/-- C6, amended: for every text that has at least one token and none of whose
tokens is longer than 5368709117 characters or contains `"<strong>"` or
`"</strong>"` as a substring, splitting the output of `applyBionicReading` on
space characters and stripping the markers from each piece reproduces the
sequence of tokens of the text, in order. -/
theorem splitOn_stripMarkers (text : List Char) (hne : tokens text ≠ [])
    (hmax : ∀ t ∈ tokens text, t.length ≤ 5368709117)
    (hfree : ∀ t ∈ tokens text, ¬ strongOpen <:+: t ∧ ¬ strongClose <:+: t) :
    ∃ out : List Char, applyBionicReading text = some out ∧
      (out.splitOn ' ').map stripMarkers = tokens text := by
  refine ⟨_, applyBionicReading_eq_some_iff.mpr ⟨hmax, rfl⟩, ?_⟩
  rw [List.splitOn_intercalate _ ' ' ?_ (by simpa using hne)]
  · rw [List.map_map]
    conv_rhs => rw [← List.map_id (tokens text)]
    apply List.map_congr_left
    intro t ht
    exact stripMarkers_emphasized (hfree t ht).1 (hfree t ht).2
  · intro l hl
    obtain ⟨t, ht, rfl⟩ := List.mem_map.mp hl
    exact space_not_mem_emphasized (tokens_no_space ht)

/-- Witness for C6 (amended): the text `"read  it now"`. -/
theorem splitOn_stripMarkers_witness :
    tokens "read  it now".toList ≠ [] ∧
      (∀ t ∈ tokens "read  it now".toList, t.length ≤ 5368709117) ∧
      (∀ t ∈ tokens "read  it now".toList, ¬ strongOpen <:+: t ∧ ¬ strongClose <:+: t) ∧
      ∃ out : List Char, applyBionicReading "read  it now".toList = some out ∧
        (out.splitOn ' ').map stripMarkers = tokens "read  it now".toList :=
  ⟨by decide, by decide, by decide,
    splitOn_stripMarkers "read  it now".toList (by decide) (by decide) (by decide)⟩

/-- C7 fails on the code for the text that is one word of 5368709118
characters `a`: the text contains a token, yet `applyBionicReading` ends in an
error and returns no string, empty or not. -/
theorem applyBionicReading_empty_huge :
    tokens (hugeWord 'a') = [hugeWord 'a'] ∧ tokens (hugeWord 'a') ≠ [] ∧
      (∃ c ∈ hugeWord 'a', isspace c = false) ∧
      applyBionicReading (hugeWord 'a') = none ∧
      ¬ ∃ out : List Char, applyBionicReading (hugeWord 'a') = some out ∧ out ≠ [] := by
  have ht := tokens_hugeWord (c := 'a') (by decide)
  have hn := applyBionicReading_hugeWord (c := 'a') (by decide)
  refine ⟨ht, by rw [ht]; simp, ⟨'a', List.mem_replicate.mpr ⟨by decide, rfl⟩, by decide⟩,
    hn, ?_⟩
  rintro ⟨out, h, _⟩
  rw [hn] at h
  exact absurd h (by simp)

/-- C8: texts with the same sequence of whitespace-delimited tokens have the
same output, whatever whitespace separates or surrounds the tokens. -/
theorem applyBionicReading_whitespace (x y : List Char) (h : tokens x = tokens y) :
    applyBionicReading x = applyBionicReading y := by
  rw [applyBionicReading_eq, applyBionicReading_eq, h]

/-- Witness for C8: `"a   b"` and `"a b"`. -/
theorem applyBionicReading_whitespace_witness :
    tokens "a   b".toList = tokens "a b".toList ∧
      applyBionicReading "a   b".toList = applyBionicReading "a b".toList :=
  ⟨by decide, applyBionicReading_whitespace "a   b".toList "a b".toList (by decide)⟩

/-- C9 fails on the code for a word of 5368709118 characters `a`: the value of
`std::ceil(word.length() * 0.4)` is 2147483648, the conversion to the `int`
`boldLength` is undefined, `processWord` raises an error instead of returning,
and so does `applyBionicReading` on the text that is this word, for every
amount of fuel given to its loop. -/
theorem applyBionicReading_total_huge :
    (hugeWord 'a').length = 5368709118 ∧
      boldLengthBinary64 (hugeWord 'a').length = 2147483648 ∧
      boldLength (hugeWord 'a').length = none ∧
      processWord (hugeWord 'a') = none ∧
      (∀ fuel : Nat, whileLoop fuel (hugeWord 'a') [] = none) ∧
      applyBionicReading (hugeWord 'a') = none := by
  have ht := tokens_hugeWord (c := 'a') (by decide)
  refine ⟨hugeWord_length 'a', ?_, ?_, processWord_hugeWord 'a', ?_,
    applyBionicReading_hugeWord (by decide)⟩
  · rw [hugeWord_length]; exact boldLengthBinary64_huge
  · rw [hugeWord_length]; exact boldLength_huge
  · intro fuel
    by_cases hf : (hugeWord 'a').length < fuel
    · rw [whileLoop_fuel _ _ _ hf, ht, List.mapM_cons, processWord_hugeWord]
      rfl
    · cases fuel with
      | zero => rfl
      | succ n =>
        have he : tokens (hugeWord 'a') = match extract (hugeWord 'a') with
            | none => []
            | some (word, rest) => word :: tokens rest := tokens_extract _
        rw [ht] at he
        rw [whileLoop]
        cases hx : extract (hugeWord 'a') with
        | none => rw [hx] at he; exact absurd he (by simp)
        | some wr =>
          obtain ⟨word, rest⟩ := wr
          rw [hx] at he
          have hw : hugeWord 'a' = word := (List.cons.inj he).1
          simp only []
          rw [← hw, processWord_hugeWord]

/-- C10 as stated fails: the non-empty, whitespace-free word `"it"` is returned
as `"it"`, of length 2, which is less than the length of the input plus the 17
characters of the two markers. -/
theorem processWord_length_counterexample :
    "it".toList ≠ [] ∧ (∀ c ∈ "it".toList, isspace c = false) ∧
      strongOpen.length + strongClose.length = 17 ∧
      processWord "it".toList = some "it".toList ∧
      ¬ ("it".toList.length + 17 ≤ "it".toList.length) := by
  refine ⟨by decide, by decide, by decide, ?_, by decide⟩
  rw [processWord_of_le (by decide)]
  decide

/-- C10, amended: for every non-empty word of at most 5368709117 characters
`processWord` returns a non-empty string at least as long as the word; for a
word of length at least 3 its length is the length of the word plus the 17
characters of the two markers, and a word of length 1 or 2 is returned as it
is, without markers. -/
theorem processWord_length (word : List Char) (hne : word ≠ [])
    (hmax : word.length ≤ 5368709117) :
    ∃ out : List Char, processWord word = some out ∧ out ≠ [] ∧
      word.length ≤ out.length ∧
      (3 ≤ word.length → out.length = word.length + 17) ∧
      (word.length ≤ 2 → out = word) := by
  refine ⟨emphasized word, processWord_of_le hmax, emphasized_ne_nil hne, ?_, ?_, ?_⟩
  · rw [emphasized_length]
    split <;> omega
  · intro h
    rw [emphasized_length, if_neg (by omega)]
  · intro h
    exact emphasized_short h

/-- Witness for C10 (amended): the word `"reading"` becomes a string of
length 7 + 17. -/
theorem processWord_length_witness :
    "reading".toList ≠ [] ∧ "reading".toList.length ≤ 5368709117 ∧
      ∃ out : List Char, processWord "reading".toList = some out ∧ out ≠ [] ∧
        "reading".toList.length ≤ out.length ∧
        (3 ≤ "reading".toList.length → out.length = "reading".toList.length + 17) ∧
        ("reading".toList.length ≤ 2 → out = "reading".toList) :=
  ⟨by decide, by decide, processWord_length "reading".toList (by decide) (by decide)⟩

/-- C11: `applyBionicReading("Neural reading engine")` is
`"<strong>Neu</strong>ral <strong>rea</strong>ding <strong>eng</strong>ine"`;
the words have lengths 6, 7, 6 and bold lengths 3, 3, 3. -/
theorem applyBionicReading_example :
    applyBionicReading "Neural reading engine".toList
        = some "<strong>Neu</strong>ral <strong>rea</strong>ding <strong>eng</strong>ine".toList ∧
      tokens "Neural reading engine".toList
        = ["Neural".toList, "reading".toList, "engine".toList] ∧
      ["Neural".toList, "reading".toList, "engine".toList].map List.length = [6, 7, 6] ∧
      [6, 7, 6].map boldLength = [some 3, some 3, some 3] := by
  refine ⟨?_, by decide, by decide, ?_⟩
  · rw [applyBionicReading_of_le (by decide)]
    decide
  · simp only [List.map, boldLength_eq]
    decide

/-- C12 as stated fails: for `"abc"` the method returns the binary64 number
`1351079888211149 / 2 ^ 53`, which is the double nearest to `0.15` and is not
`3 * 0.05 = 3 / 20`. -/
theorem calculateCognitiveLoad_counterexample :
    calculateCognitiveLoad "abc".toList = 1351079888211149 / 2 ^ 53 ∧
      calculateCognitiveLoad "abc".toList ≠ ("abc".toList.length : ℚ) * 0.05 ∧
      calculateCognitiveLoad "abc".toList ≠ ("abc".toList.length : ℚ) / 20 := by
  have h3 : "abc".toList.length = 3 := by decide
  refine ⟨calculateCognitiveLoad_abc, ?_, ?_⟩
  · rw [calculateCognitiveLoad_abc, h3]; norm_num
  · rw [calculateCognitiveLoad_abc, h3]; norm_num

/-- C12, amended: for every text `calculateCognitiveLoad` equals
`length * 0.05` up to the rounding of binary64.  It differs from the exact
`length / 20` by at most the fraction `2 ^ (-51)` of it; it is exactly
`length / 20` for every length below `2 ^ 53` that is a multiple of 5, and for
no length that is not a multiple of 5; in particular it is 0.25 for `"hello"`
and 0 for the empty text. -/
theorem calculateCognitiveLoad_value (text : List Char) :
    |calculateCognitiveLoad text - (text.length : ℚ) / 20|
        ≤ (text.length : ℚ) / 20 / 2 ^ 51 ∧
      (5 ∣ text.length → text.length < 2 ^ 53 →
        calculateCognitiveLoad text = (text.length : ℚ) / 20) ∧
      (calculateCognitiveLoad text = (text.length : ℚ) / 20 → 5 ∣ text.length) ∧
      calculateCognitiveLoad "hello".toList = 0.25 ∧
      calculateCognitiveLoad [] = 0 :=
  ⟨calculateCognitiveLoad_close text, calculateCognitiveLoad_exact,
    calculateCognitiveLoad_dvd, calculateCognitiveLoad_hello, calculateCognitiveLoad_nil⟩

/-- C14: splitting the output of `applyBionicReading` into tokens again gives
exactly the results of `processWord` on the tokens of the text, error for
error.  Whenever there is an output, its only whitespace is the space
character, it neither begins nor ends with a space and has no two spaces in a
row, and it has as many pieces as the text has tokens: pieces counted as the
tokens of the output, which for a text with at least one token are also the
pieces of a split at every space.  There is an output for every text of at
most 5368709117 characters. -/
theorem applyBionicReading_retokenise (text : List Char) :
    (applyBionicReading text).map tokens = (tokens text).mapM processWord ∧
      (∀ out : List Char, applyBionicReading text = some out →
        (∀ c ∈ out, isspace c = true → c = ' ') ∧
        out.head? ≠ some ' ' ∧ out.getLast? ≠ some ' ' ∧
        ¬ [' ', ' '] <:+: out ∧
        (tokens out).length = (tokens text).length ∧
        (tokens text ≠ [] → (out.splitOn ' ').length = (tokens text).length)) ∧
      (text.length ≤ 5368709117 → ∃ out : List Char, applyBionicReading text = some out) := by
  have hw := emphasized_tokens_words text
  have htok := tokens_intercalate _ hw
  refine ⟨?_, ?_, fun h => ⟨_, applyBionicReading_of_le h⟩⟩
  · rw [applyBionicReading_eq]
    cases hm : (tokens text).mapM processWord with
    | none => rfl
    | some ps =>
      have h2 := (mapM_processWord_eq_some_iff.mp hm).2
      rw [h2]
      show some (tokens _) = some _
      rw [htok]
  · intro out hout
    obtain ⟨_, rfl⟩ := applyBionicReading_eq_some_iff.mp hout
    refine ⟨?_, ?_, ?_, intercalate_no_double_space _ hw, ?_, ?_⟩
    · intro c hc hsp
      rcases mem_intercalate _ hc with h | ⟨q, hq, hcq⟩
      · exact List.mem_singleton.mp h
      · rw [(hw q hq).2 c hcq] at hsp
        exact absurd hsp (by decide)
    · intro h
      exact absurd (intercalate_head _ hw _ h) (by decide)
    · intro h
      exact absurd (intercalate_getLast _ hw _ h) (by decide)
    · rw [htok, List.length_map]
    · intro hne
      rw [List.splitOn_intercalate _ ' ' ?_ (by simpa using hne), List.length_map]
      intro l hl hmem
      exact absurd ((hw l hl).2 _ hmem) (by decide)

/-- C15 fails on the code for the two texts that are one word of 5368709118
characters `a` and one word of 5368709118 characters `b`: `applyBionicReading`
ends in the same error on both, although their token sequences differ. -/
theorem applyBionicReading_eq_iff_huge :
    applyBionicReading (hugeWord 'a') = applyBionicReading (hugeWord 'b') ∧
      tokens (hugeWord 'a') ≠ tokens (hugeWord 'b') ∧
      applyBionicReading (hugeWord 'a') = none ∧ applyBionicReading (hugeWord 'b') = none := by
  have ha := applyBionicReading_hugeWord (c := 'a') (by decide)
  have hb := applyBionicReading_hugeWord (c := 'b') (by decide)
  refine ⟨by rw [ha, hb], ?_, ha, hb⟩
  rw [tokens_hugeWord (c := 'a') (by decide), tokens_hugeWord (c := 'b') (by decide)]
  intro h
  exact hugeWord_ne (List.cons.inj h).1

/-- C16: for a non-empty string `s` of whitespace, if `a` and `b` both contain
a token then `applyBionicReading (a ++ s ++ b)` is the output for `a`, one
space, and the output for `b`, and it ends in an error when the call for `a`
or the call for `b` does; if `a` contains no token it is the outcome for `b`. -/
theorem applyBionicReading_append (a b s : List Char) (hne : s ≠ [])
    (hs : ∀ c ∈ s, isspace c = true) :
    (tokens a ≠ [] → tokens b ≠ [] →
      applyBionicReading (a ++ s ++ b)
        = (applyBionicReading a).bind (fun outA =>
            (applyBionicReading b).map (fun outB => outA ++ [' '] ++ outB))) ∧
    (tokens a = [] → applyBionicReading (a ++ s ++ b) = applyBionicReading b) := by
  have htok := tokens_append_space_append a b hne hs
  constructor
  · intro ha hb
    by_cases hla : ∀ t ∈ tokens a, t.length ≤ 5368709117
    · by_cases hlb : ∀ t ∈ tokens b, t.length ≤ 5368709117
      · have hlab : ∀ t ∈ tokens (a ++ s ++ b), t.length ≤ 5368709117 := by
          intro t ht
          rw [htok] at ht
          rcases List.mem_append.mp ht with h | h
          · exact hla t h
          · exact hlb t h
        rw [applyBionicReading_eq_some_iff.mpr ⟨hla, rfl⟩,
          applyBionicReading_eq_some_iff.mpr ⟨hlb, rfl⟩,
          applyBionicReading_eq_some_iff.mpr ⟨hlab, rfl⟩, htok, List.map_append,
          intercalate_append _ _ _ (by simpa using ha) (by simpa using hb)]
        rfl
      · have hb' : applyBionicReading b = none := by
          rw [applyBionicReading_eq_none_iff]
          by_contra hcon
          exact hlb (fun t ht => by
            by_contra hlt
            exact hcon ⟨t, ht, by omega⟩)
        obtain ⟨t, ht, hlt⟩ := applyBionicReading_eq_none_iff.mp hb'
        have hab : applyBionicReading (a ++ s ++ b) = none :=
          applyBionicReading_eq_none_iff.mpr
            ⟨t, by rw [htok]; exact List.mem_append_right _ ht, hlt⟩
        rw [hab, hb', applyBionicReading_eq_some_iff.mpr ⟨hla, rfl⟩]
        rfl
    · have ha' : applyBionicReading a = none := by
        rw [applyBionicReading_eq_none_iff]
        by_contra hcon
        exact hla (fun t ht => by
          by_contra hlt
          exact hcon ⟨t, ht, by omega⟩)
      obtain ⟨t, ht, hlt⟩ := applyBionicReading_eq_none_iff.mp ha'
      have hab : applyBionicReading (a ++ s ++ b) = none :=
        applyBionicReading_eq_none_iff.mpr
          ⟨t, by rw [htok]; exact List.mem_append_left _ ht, hlt⟩
      rw [hab, ha']
      rfl
  · intro ha
    rw [applyBionicReading_eq, applyBionicReading_eq, htok, ha, List.nil_append]

/-- Witness for C16: the whitespace run space, line feed, space between
`"read it"` and `"now"`, and after the token-less `"  "`. -/
theorem applyBionicReading_append_witness :
    [' ', Char.ofNat 10, ' '] ≠ [] ∧ (∀ c ∈ [' ', Char.ofNat 10, ' '], isspace c = true) ∧
      applyBionicReading ("read it".toList ++ [' ', Char.ofNat 10, ' '] ++ "now".toList)
        = (applyBionicReading "read it".toList).bind (fun outA =>
            (applyBionicReading "now".toList).map (fun outB => outA ++ [' '] ++ outB)) ∧
      applyBionicReading "read it".toList = some "<strong>re</strong>ad it".toList ∧
      applyBionicReading "now".toList = some "<strong>no</strong>w".toList ∧
      applyBionicReading ("  ".toList ++ [' ', Char.ofNat 10, ' '] ++ "now".toList)
        = applyBionicReading "now".toList :=
  ⟨by decide, by decide,
    (applyBionicReading_append "read it".toList "now".toList [' ', Char.ofNat 10, ' ']
      (by decide) (by decide)).1 (by decide) (by decide),
    by rw [applyBionicReading_of_le (by decide)]; decide,
    by rw [applyBionicReading_of_le (by decide)]; decide,
    (applyBionicReading_append "  ".toList "now".toList [' ', Char.ofNat 10, ' ']
      (by decide) (by decide)).2 (by decide)⟩


end NeuralReadingEngine
